import Mathlib

/-!
# Verification of the DeepDiff recursive comparison engine

A shallow embedding in Lean 4 of the parts of `deepdiff/diff.py` that the
verified claims are about: the diff-count budget (`DeepDiff._count_diff`,
`_auto_tune_cache`, `_auto_off_cache`), the main dispatch (`DeepDiff._diff`)
and dictionary comparison (`_diff_dict`) over an explicit heap (so that
cyclic Python objects are representable), the ordered-sequence comparison
(`_diff_iterable_in_order`, `_diff_ordered_iterable_by_difflib`,
`_diff_by_forming_pairs_and_comparing_one_by_one`, `_get_matching_pairs`,
`_compare_in_order`), the unordered comparison
(`_diff_iterable_with_deephash`, `_get_most_in_common_pairs_in_iterables`,
`_get_rough_distance_of_hashed_objs`), and the constructor-time validation
in `DeepDiff.__init__`.

Python machine floats used for cutoffs and distances are modelled as `ℚ`;
Python `dict` / `OrderedSet` values are modelled as insertion-ordered
association lists / duplicate-free lists, matching their iteration order.
External collaborators (DeepHash, the rough-distance computation of a
nested engine run) are passed in as function parameters (oracles).
-/

namespace DeepDiffSpec

/-- The kinds of change records (`report_type` strings of `_report_result`). -/
inductive RKind where
  | valuesChanged
  | typeChanges
  | dictionaryItemAdded
  | dictionaryItemRemoved
  | iterableItemAdded
  | iterableItemRemoved
  | iterableItemMoved
  | setItemAdded
  | setItemRemoved
  | repetitionChange
  | attributeAdded
  | attributeRemoved
  | unprocessed
  deriving Repr, DecidableEq

/-- The scalar configuration options of `DeepDiff.__init__` that the verified
claims exercise.  All other options are at their defaults (no exclusion
filters, no significant digits, no math epsilon, `ignore_*` options off,
`verbose_level=1`, `view=text`). -/
structure Config where
  maxDiffs : Option Nat
  maxPasses : Nat
  cacheSize : Nat
  cacheTuningSampleSize : Nat
  cutoffDistanceForPairs : ℚ
  cutoffIntersectionForPairs : ℚ
  reportRepetition : Bool
  deriving Repr, DecidableEq

/-- Default values from the `DeepDiff.__init__` signature:
`max_diffs=None`, `max_passes=10000000`, `cache_size=0`,
`cache_tuning_sample_size=0`, `cutoff_distance_for_pairs=0.3`,
`cutoff_intersection_for_pairs=0.7`, `report_repetition=False`. -/
def defaultConfig : Config where
  maxDiffs := none
  maxPasses := 10000000
  cacheSize := 0
  cacheTuningSampleSize := 0
  cutoffDistanceForPairs := 3/10
  cutoffIntersectionForPairs := 7/10
  reportRepetition := false

/-- `CACHE_AUTO_ADJUST_THRESHOLD = 0.25`. -/
def cacheAutoAdjustThreshold : ℚ := 1/4

/-- The shared `self._stats` dictionary created at root construction,
plus `warningCount`, which counts the `logger.warning` calls the engine
makes (the warnings themselves are side effects in Python; here we count
them so that "warns exactly once" is statable), and
`enableCacheEveryXDiff`, the `_ENABLE_CACHE_EVERY_X_DIFF` entry of
`self._shared_parameters`. -/
structure Stats where
  passesCount : Nat
  diffCount : Nat
  distanceCacheHitCount : Nat
  previousDiffCount : Nat
  previousCacheHitCount : Nat
  maxPassLimitReached : Bool
  maxDiffLimitReached : Bool
  distanceCacheEnabled : Bool
  enableCacheEveryXDiff : Nat
  warningCount : Nat
  deriving Repr, DecidableEq

/-- The initial stats of a root run (`DeepDiff.__init__`, the `_stats`
dictionary and the `_ENABLE_CACHE_EVERY_X_DIFF` shared parameter). -/
def initStats (cfg : Config) : Stats where
  passesCount := 0
  diffCount := 0
  distanceCacheHitCount := 0
  previousDiffCount := 0
  previousCacheHitCount := 0
  maxPassLimitReached := false
  maxDiffLimitReached := false
  distanceCacheEnabled := cfg.cacheSize ≠ 0
  enableCacheEveryXDiff := cfg.cacheTuningSampleSize * 10
  warningCount := 0

/-- `DeepDiff._auto_off_cache`: disable the distance cache when the growth
slope of cache hits against diff count falls below the threshold. -/
def autoOffCache (st : Stats) : Stats :=
  if st.distanceCacheEnabled then
    let angle : ℚ :=
      ((st.distanceCacheHitCount : ℚ) - (st.previousCacheHitCount : ℚ)) /
        ((st.diffCount : ℚ) - (st.previousDiffCount : ℚ))
    if angle < cacheAutoAdjustThreshold then
      { st with distanceCacheEnabled := false }
    else st
  else st

/-- The tuning stage of `DeepDiff._auto_tune_cache`: when the cache is on,
sample and possibly turn it off; when off, periodically turn it back on
with an exponentially growing interval. -/
def autoTuneStage (cfg : Config) (st : Stats) (takeSample : Bool) : Stats :=
  if cfg.cacheTuningSampleSize ≠ 0 then
    if st.distanceCacheEnabled then
      if takeSample then autoOffCache st else st
    else if st.diffCount % st.enableCacheEveryXDiff = 0 then
      { st with
          enableCacheEveryXDiff := st.enableCacheEveryXDiff * 10
          distanceCacheEnabled := true }
    else st
  else st

/-- `DeepDiff._auto_tune_cache`: every `cache_tuning_sample_size` diffs take
a sample; tune the cache, then refresh the `PREVIOUS ...` counters. -/
def autoTuneCache (cfg : Config) (st : Stats) : Stats :=
  let takeSample : Bool := st.diffCount % cfg.cacheTuningSampleSize = 0
  let st := autoTuneStage cfg st takeSample
  if takeSample then
    { st with
        previousDiffCount := st.diffCount
        previousCacheHitCount := st.distanceCacheHitCount }
  else st

/-- `DeepDiff._count_diff`.  Returns the updated stats and `true` when the
Python method returns `StopIteration` (budget crossed: no increment, warn
once, set the `MAX DIFF LIMIT REACHED` flag). -/
def countDiff (cfg : Config) (st : Stats) : Stats × Bool :=
  match cfg.maxDiffs with
  | some m =>
    if st.diffCount > m then
      if st.maxDiffLimitReached then (st, true)
      else
        ({ st with maxDiffLimitReached := true
                   warningCount := st.warningCount + 1 }, true)
    else
      let st := { st with diffCount := st.diffCount + 1 }
      if cfg.cacheSize ≠ 0 ∧ cfg.cacheTuningSampleSize ≠ 0 then
        (autoTuneCache cfg st, false)
      else (st, false)
  | none =>
    let st := { st with diffCount := st.diffCount + 1 }
    if cfg.cacheSize ≠ 0 ∧ cfg.cacheTuningSampleSize ≠ 0 then
      (autoTuneCache cfg st, false)
    else (st, false)

/-- Iterate `countDiff` (the state evolution of repeated `_count_diff`
calls, ignoring the stop signal, which leaves the state unchanged once the
flag is set). -/
def iterCountDiff (cfg : Config) : Nat → Stats → Stats
  | 0, st => st
  | n + 1, st => iterCountDiff cfg n (countDiff cfg st).1

/-! ## Heap model of Python values (`_diff` and `_diff_dict`)

Python objects live on a heap and may be cyclic (`a['self'] = a`), and the
engine distinguishes object identity (`is`, `id()`) from equality.  We model
this with explicit addresses: a `Heap` maps addresses to nodes, a node is an
`int`, a `str`, or a `dict` whose values are addresses.  `id(x)` is the
address of `x`, and `x is y` is address equality.  The value domain is
restricted to the kinds the claims exercise; the remaining `_diff` dispatch
branches (datetimes, sets, numpy arrays, ...) are not reachable from it. -/

abbrev Addr := Nat

/-- A heap node: a Python object. -/
inductive Node where
  | int (n : Int)
  | str (s : String)
  | dict (entries : List (String × Addr))
  deriving Repr, DecidableEq

abbrev Heap := List Node

/-- A change record of the heap model: the `report_type` together with the
path of dictionary keys from the root level (`DiffLevel.path()`). -/
structure HRec where
  kind : RKind
  path : List String
  deriving Repr, DecidableEq

/-- The pluggable hooks of `_diff`: the outcome of `_use_custom_operator`
(with the default `custom_operators=[]` it is constantly `false`) and the
outcome of the path-based exclusion filters consulted by `_skip_this`
(with no filters configured it is constantly `false`). -/
structure HOracles where
  customOp : Addr → Addr → Bool
  skip : List String → Bool

/-- The default configuration: no custom operators, no filters. -/
def noOracles : HOracles := ⟨fun _ _ => false, fun _ => false⟩

/-- `_report_result`: the record reaches the tree only if `_skip_this` is
false for the change level. -/
def report (ops : HOracles) (path : List String) (kind : RKind) : List HRec :=
  if ops.skip path then [] else [⟨kind, path⟩]

/-- Python `key.startswith('__')`, written on the character list (the
builtin `String.startsWith` does not reduce inside the kernel). -/
def startsWithDunder (k : String) : Bool :=
  match k.data with
  | c1 :: c2 :: _ => c1 = '_' ∧ c2 = '_'
  | _ => false

/-- The keys of a dict, with the default `ignore_private_variables=True`
filter of `_diff_dict` (string keys starting with `__` are dropped) and
`OrderedSet` deduplication. -/
def dictKeys (entries : List (String × Addr)) : List String :=
  ((entries.map Prod.fst).filter (fun k => ¬ startsWithDunder k)).eraseDups

/-- Python `d[k]` on the association-list representation of a dict. -/
def lookupKey (entries : List (String × Addr)) (k : String) : Option Addr :=
  (entries.find? (fun e => e.1 = k)).map Prod.snd

/-- The `for key in t_keys_added` / `t_keys_removed` loops of `_diff_dict`:
each iteration first consults `_count_diff` (returning early on
`StopIteration`), then reports one added/removed record for the key.
Returns the accumulated records, the stats, and whether the loop stopped. -/
def reportKeysLoop (cfg : Config) (ops : HOracles) (path : List String)
    (kind : RKind) : List String → List HRec → Stats → List HRec × Stats × Bool
  | [], recs, st => (recs, st, false)
  | k :: rest, recs, st =>
    let c := countDiff cfg st
    if c.2 then (recs, c.1, true)
    else reportKeysLoop cfg ops path kind rest (recs ++ report ops (path ++ [k]) kind) c.1

/-- The type of the child-comparison continuation handed to `_diff_dict`:
a `_diff` call on a child level (arguments: t1 addr, t2 addr, extended
`parents_ids`, child path, stats). -/
abbrev ChildDiff :=
  Addr → Addr → List Addr → List String → Stats → Option (List HRec × Stats)

/-- The `for key in t_keys_intersect` loop of `_diff_dict`: per key consult
`_count_diff` (returning the partial result on `StopIteration`), skip the
key when the value's id is among `parents_ids` (the cycle guard), otherwise
descend via `_diff` (the `child` continuation) with the ancestor set
extended by the value's id (`add_to_frozen_set`). -/
def intersectLoop (cfg : Config) (child : ChildDiff) :
    List String → List (String × Addr) → List (String × Addr) →
    List Addr → List String → List HRec → Stats → Option (List HRec × Stats)
  | [], _, _, _, _, recs, st => some (recs, st)
  | k :: rest, d1, d2, parents, path, recs, st =>
    let c := countDiff cfg st
    if c.2 then some (recs, c.1)
    else
      let st := c.1
      match lookupKey d1 k, lookupKey d2 k with
      | some v1, some v2 =>
        if parents ≠ [] ∧ v1 ∈ parents then
          intersectLoop cfg child rest d1 d2 parents path recs st
        else
          match child v1 v2 (v1 :: parents) (path ++ [k]) st with
          | none => none
          | some r => intersectLoop cfg child rest d1 d2 parents path (recs ++ r.1) r.2
      | _, _ => none

/-- `DeepDiff._diff_dict` (default configuration: not printed as attribute,
no key cleaning).  Key sets follow `OrderedSet` semantics:
`t_keys_intersect = t2_keys ∩ t1_keys` in `t2` order, added keys in `t2`
order, removed keys in `t1` order. -/
def diffHDict (cfg : Config) (ops : HOracles) (child : ChildDiff)
    (d1 d2 : List (String × Addr)) (parents : List Addr) (path : List String)
    (st : Stats) : Option (List HRec × Stats) :=
  let t1Keys := dictKeys d1
  let t2Keys := dictKeys d2
  let intersectKeys := t2Keys.filter (fun k => k ∈ t1Keys)
  let addedKeys := t2Keys.filter (fun k => ¬ k ∈ intersectKeys)
  let removedKeys := t1Keys.filter (fun k => ¬ k ∈ intersectKeys)
  let r1 := reportKeysLoop cfg ops path .dictionaryItemAdded addedKeys [] st
  if r1.2.2 then some (r1.1, r1.2.1)
  else
    let r2 := reportKeysLoop cfg ops path .dictionaryItemRemoved removedKeys r1.1 r1.2.1
    if r2.2.2 then some (r2.1, r2.2.1)
    else intersectLoop cfg child intersectKeys d1 d2 parents path r2.1 r2.2.1

/-- `DeepDiff._diff`, the main dispatch, over the heap model.  `parents`
is `parents_ids`, `path` the key path of the level.  The `fuel` argument is
an artefact of the embedding (Python recursion has no fuel); `none` means
the fuel ran out, so a result `some r` for some fuel witnesses termination.
In order: `_count_diff` budget, custom operators, the `level.t1 is level.t2`
identity short-circuit, `_skip_this`, then type dispatch
(type mismatch with the default empty `ignore_type_in_groups` reports
`type_changes`; ints via `_diff_numbers` with default settings; strings via
`_diff_str`; dicts via `_diff_dict`). -/
def diffH (hp : Heap) (cfg : Config) (ops : HOracles) :
    Nat → Addr → Addr → List Addr → List String → Stats → Option (List HRec × Stats)
  | 0, _, _, _, _, _ => none
  | fuel + 1, a1, a2, parents, path, st =>
    let c := countDiff cfg st
    if c.2 then some ([], c.1)
    else
      let st := c.1
      if ops.customOp a1 a2 then some ([], st)
      else if a1 = a2 then some ([], st)
      else if ops.skip path then some ([], st)
      else
        match hp.get? a1, hp.get? a2 with
        | some (.int n), some (.int m) =>
          if n ≠ m then some (report ops path .valuesChanged, st) else some ([], st)
        | some (.str s1), some (.str s2) =>
          if s1 ≠ s2 then some (report ops path .valuesChanged, st) else some ([], st)
        | some (.dict d1), some (.dict d2) =>
          diffHDict cfg ops (diffH hp cfg ops fuel) d1 d2 parents path st
        | some _, some _ => some (report ops path .typeChanges, st)
        | _, _ => none

/-- The root invocation `self._diff(root, parents_ids=frozenset(id(t1)))`
of `DeepDiff.__init__` over the heap model (default configuration inputs,
fresh stats). -/
def deepDiffH (hp : Heap) (cfg : Config) (ops : HOracles) (fuel : Nat)
    (t1 t2 : Addr) : Option (List HRec × Stats) :=
  diffH hp cfg ops fuel t1 t2 [t1] [] (initStats cfg)

/-! ## Constructor-time validation (`DeepDiff.__init__`, C9) -/

/-- The constructor arguments whose validation C9 is about, plus the names
of the unrecognized keyword arguments (Python `**kwargs`).
`verbose_level` and `cache_purge_level` accept arbitrary values in Python,
hence `Int` here; the cutoffs are coerced with `float(...)`, modelled
as `ℚ`. -/
structure InitArgs where
  unknownKwargs : List String
  verboseLevel : Int
  cachePurgeLevel : Int
  cutoffDistanceForPairs : ℚ
  cutoffIntersectionForPairs : ℚ
  deriving Repr, DecidableEq

/-- First line of the `ValueError` for unexpected `**kwargs`. -/
def invalidParamsMsg : String := "The following parameter(s) are not valid"

/-- `VERBOSE_LEVEL_RANGE_MSG`. -/
def verboseLevelRangeMsg : String := "verbose_level should be 0, 1, or 2."

/-- `PURGE_LEVEL_RANGE_MSG`. -/
def purgeLevelRangeMsg : String := "cache_purge_level should be 0, 1, or 2."

/-- `CUTOFF_RANGE_ERROR_MSG`. -/
def cutoffRangeErrorMsg : String :=
  "cutoff_distance_for_pairs needs to be a positive float max 1."

/-- The validation performed by `DeepDiff.__init__` in source order:
unexpected keyword arguments (raised before anything else), then
`verbose_level`, `cache_purge_level` and `cutoff_distance_for_pairs`.
A Python `raise ValueError` is an `Except.error`.
(`cutoff_intersection_for_pairs` is stored without a range check.) -/
def validateInit (a : InitArgs) : Except String Unit :=
  if a.unknownKwargs ≠ [] then .error invalidParamsMsg
  else if ¬ (a.verboseLevel = 0 ∨ a.verboseLevel = 1 ∨ a.verboseLevel = 2) then
    .error verboseLevelRangeMsg
  else if ¬ (a.cachePurgeLevel = 0 ∨ a.cachePurgeLevel = 1 ∨ a.cachePurgeLevel = 2) then
    .error purgeLevelRangeMsg
  else if a.cutoffDistanceForPairs < 0 ∨ a.cutoffDistanceForPairs > 1 then
    .error cutoffRangeErrorMsg
  else .ok ()

/-- `DeepDiff` construction: all validation of `__init__` happens before the
root `self._diff(root, ...)` call.  The comparison work is abstracted as
`engine`; an `Except.error` result therefore shows that no comparison work
was reached for that invocation. -/
def deepDiffConstruct {V R : Type} (engine : V → V → R) (a : InitArgs)
    (t1 t2 : V) : Except String R :=
  match validateInit a with
  | .error e => .error e
  | .ok _ => .ok (engine t1 t2)

/-! ## Ordered-sequence comparison (C3, C8)

`_diff_iterable_in_order`, `_diff_ordered_iterable_by_difflib`,
`_diff_by_forming_pairs_and_comparing_one_by_one`, `_get_matching_pairs`
and `_compare_in_order`.  The item domain is restricted to Python ints —
`basic_types` scalars, which is exactly the qualifying case for the difflib
alignment.  Indices are `Int` because the compare-function matcher of
`_get_matching_pairs` uses `-1` as its "no match" index.  Exclusion filters
are at their defaults (none), so `_report_result` never drops a record. -/

/-- The per-sequence options of the ordered comparison that the claims
exercise (`zip_ordered_iterables` and `iterable_compare_func`; further
options at defaults). -/
structure OCfg where
  zipOrderedIterables : Bool
  iterableCompareFunc : Option (Int → Int → Bool)

/-- A change record of the ordered model: `report_type`,
`child_relationship_param` (and `param2` for moved records), and the t1/t2
values of the change level (`none` is `notpresent`). -/
structure ORec where
  kind : RKind
  param : Int
  param2 : Option Int
  old : Option Int
  new : Option Int
  deriving Repr, DecidableEq

/-- `itertools.zip_longest` with `fillvalue=ListItemRemovedOrAdded`
(the marker is `none`). -/
def zipLongest : List Int → List Int → List (Option Int × Option Int)
  | [], ys => ys.map (fun y => (none, some y))
  | x :: xs, [] => (some x, none) :: zipLongest xs []
  | x :: xs, y :: ys => (some x, some y) :: zipLongest xs ys

/-- `_compare_in_order` without index bounds: pair positionally, indices
`(i, i)`. -/
def compareInOrderFull (t1 t2 : List Int) :
    List ((Int × Int) × (Option Int × Option Int)) :=
  (zipLongest t1 t2).enum.map (fun p => (((p.1 : Int), (p.1 : Int)), p.2))

/-- Python slice `l[a:b]`. -/
def sliceList (l : List Int) (a b : Nat) : List Int := (l.take b).drop a

/-- `_compare_in_order` restricted to the sub-ranges `t1[f1:u1]`,
`t2[f2:u2]`: indices are `(i + f1, i + f2)`. -/
def compareInOrderRange (t1 t2 : List Int) (f1 u1 f2 u2 : Nat) :
    List ((Int × Int) × (Option Int × Option Int)) :=
  (zipLongest (sliceList t1 f1 u1) (sliceList t2 f2 u2)).enum.map
    (fun p => (((p.1 + f1 : Int), (p.1 + f2 : Int)), p.2))

/-- The `iterable_compare_func` branch of `_get_matching_pairs`: for each
`x` of `t1` in order, match the first not-yet-matched `y` of `t2` the
compare function accepts (one-to-one via `y_index_matched`); a second pass
adds the `t2` items whose deep hash was never matched.  DeepHash on the
int domain is injective, so `y_matched` membership is value membership.
The model compare function is total, so the `CannotCompare` escape does
not arise. -/
def getMatchingPairsCF (cmp : Int → Int → Bool) (t1 t2 : List Int) :
    List ((Int × Int) × (Option Int × Option Int)) :=
  let t2e := t2.enum
  let firstPass := t1.enum.foldl
    (fun (acc : List ((Int × Int) × (Option Int × Option Int)) × List Nat × List Int) p =>
      match t2e.find? (fun q => ¬ q.1 ∈ acc.2.1 ∧ cmp p.2 q.2) with
      | some q =>
        (acc.1 ++ [(((p.1 : Int), (q.1 : Int)), (some p.2, some q.2))],
         acc.2.1 ++ [q.1], acc.2.2 ++ [q.2])
      | none => (acc.1 ++ [(((p.1 : Int), -1), (some p.2, none))], acc.2))
    ([], [], [])
  firstPass.1 ++
    (t2e.filter (fun q => ¬ q.2 ∈ firstPass.2.2)).map
      (fun q => ((-1, (q.1 : Int)), (none, some q.2)))

/-- `_get_matching_pairs` over the whole sequences. -/
def getMatchingPairs (ocfg : OCfg) (t1 t2 : List Int) :
    List ((Int × Int) × (Option Int × Option Int)) :=
  match ocfg.iterableCompareFunc with
  | none => compareInOrderFull t1 t2
  | some cmp => getMatchingPairsCF cmp t1 t2

/-- `_get_matching_pairs` with sub-range indices (as invoked from the
`replace` opcodes).  Note that the compare-function branch of the Python
code ignores the indices and scans the whole sequences. -/
def getMatchingPairsRange (ocfg : OCfg) (t1 t2 : List Int) (f1 u1 f2 u2 : Nat) :
    List ((Int × Int) × (Option Int × Option Int)) :=
  match ocfg.iterableCompareFunc with
  | none => compareInOrderRange t1 t2 f1 u1 f2 u2
  | some cmp => getMatchingPairsCF cmp t1 t2

/-- The recursive `self._diff(next_level, ...)` on a pair of scalar items
(`x`, `y` at index `i`): `_count_diff` first, then the number comparison of
`_diff_numbers` with default settings (`values_changed` iff unequal). -/
def childDiffScalar (cfg : Config) (i : Int) (x y : Int) (st : Stats) :
    List ORec × Stats :=
  let c := countDiff cfg st
  if c.2 then ([], c.1)
  else if x = y then ([], c.1)
  else ([⟨.valuesChanged, i, none, some x, some y⟩], c.1)

/-- The reporting loop of
`_diff_by_forming_pairs_and_comparing_one_by_one`, applied to an already
computed matching-pair list: per pair consult `_count_diff` (early return
on `StopIteration`); a one-sided pair is an added/removed record; a
two-sided pair at different indices that is equal (or when an
`iterable_compare_func` is configured) is a single `iterable_item_moved`
record with the old and the new index; otherwise descend (`parents_ids`
cycle guard, then child `_diff`). -/
def processPairs (cfg : Config) (ocfg : OCfg) (idOf : Int → Nat)
    (parents : List Nat) :
    List ((Int × Int) × (Option Int × Option Int)) → List ORec → Stats →
    List ORec × Stats
  | [], recs, st => (recs, st)
  | (ij, xy) :: rest, recs, st =>
    let c := countDiff cfg st
    if c.2 then (recs, c.1)
    else
      let st := c.1
      match xy with
      | (some x, none) =>
        processPairs cfg ocfg idOf parents rest
          (recs ++ [⟨.iterableItemRemoved, ij.1, none, some x, none⟩]) st
      | (none, some y) =>
        processPairs cfg ocfg idOf parents rest
          (recs ++ [⟨.iterableItemAdded, ij.2, none, none, some y⟩]) st
      | (none, none) =>
        -- `zip_longest` never produces a two-sided marker pair
        processPairs cfg ocfg idOf parents rest recs st
      | (some x, some y) =>
        if ij.1 ≠ ij.2 ∧ (x = y ∨ ocfg.iterableCompareFunc.isSome) then
          processPairs cfg ocfg idOf parents rest
            (recs ++ [⟨.iterableItemMoved, ij.1, some ij.2, some x, some y⟩]) st
        else if parents ≠ [] ∧ idOf x ∈ parents then
          processPairs cfg ocfg idOf parents rest recs st
        else
          let r := childDiffScalar cfg ij.1 x y st
          processPairs cfg ocfg idOf parents rest (recs ++ r.1) r.2

/-! ### `difflib.SequenceMatcher` (modelled from the spec)

The LCS-style opcode extraction is the Python standard library, not part
of the provided source.  Modelled from the spec (§4.2: "run an LCS-based
opcode extraction (classic equal / replace / delete / insert segments)")
and the documented behavior of `SequenceMatcher` with `isjunk=None`,
`autojunk=False`: `find_longest_match` returns the longest matching block,
earliest in `a` and then earliest in `b` among the maximal ones;
`get_matching_blocks` recurses on both sides of it, merges adjacent blocks
and appends the `(len(a), len(b), 0)` sentinel; `get_opcodes` converts the
blocks into `equal`/`replace`/`delete`/`insert` segments. -/

/-- Length of the common run of `a` from `i` and `b` from `j`, staying
below `ahi`/`bhi`.  The first argument is fuel (structural recursion so
that concrete runs evaluate); every caller passes at least `ahi - i`, so
the fuel never runs out before the bound check stops the scan. -/
def matchExtent (a b : List Int) (ahi bhi : Nat) : Nat → Nat → Nat → Nat
  | 0, _, _ => 0
  | fuel + 1, i, j =>
    if i < ahi ∧ j < bhi ∧ a.getD i 0 = b.getD j 0 then
      1 + matchExtent a b ahi bhi fuel (i + 1) (j + 1)
    else 0

/-- `find_longest_match` on `a[alo:ahi]` / `b[blo:bhi]`: the maximal
matching block, earliest in `a`, then earliest in `b`. -/
def findLongestMatch (a b : List Int) (alo ahi blo bhi : Nat) :
    Nat × Nat × Nat :=
  (List.range' alo (ahi - alo)).foldl
    (fun best i =>
      (List.range' blo (bhi - blo)).foldl
        (fun best j =>
          let k := matchExtent a b ahi bhi ahi i j
          if k > best.2.2 then (i, j, k) else best)
        best)
    (alo, blo, 0)

/-- The recursive block collection of `get_matching_blocks` (the queue
plus final sort of the Python implementation visits blocks in this
in-order arrangement).  Fuel bounds the recursion depth; the top-level
call provides enough. -/
def matchingBlocksAux (a b : List Int) :
    Nat → Nat → Nat → Nat → Nat → List (Nat × Nat × Nat)
  | 0, _, _, _, _ => []
  | fuel + 1, alo, ahi, blo, bhi =>
    let m := findLongestMatch a b alo ahi blo bhi
    if m.2.2 ≠ 0 then
      matchingBlocksAux a b fuel alo m.1 blo m.2.1 ++ [m] ++
        matchingBlocksAux a b fuel (m.1 + m.2.2) ahi (m.2.1 + m.2.2) bhi
    else []

/-- `get_matching_blocks`: collect, merge adjacent blocks, append the
sentinel. -/
def matchingBlocks (a b : List Int) : List (Nat × Nat × Nat) :=
  let blocks := matchingBlocksAux a b (a.length + b.length + 1) 0 a.length 0 b.length
  let merged := blocks.foldl
    (fun (acc : List (Nat × Nat × Nat) × (Nat × Nat × Nat)) blk =>
      if acc.2.1 + acc.2.2.2 = blk.1 ∧ acc.2.2.1 + acc.2.2.2 = blk.2.1 then
        (acc.1, (acc.2.1, acc.2.2.1, acc.2.2.2 + blk.2.2))
      else if acc.2.2.2 ≠ 0 then (acc.1 ++ [acc.2], blk)
      else (acc.1, blk))
    ([], (0, 0, 0))
  (if merged.2.2.2 ≠ 0 then merged.1 ++ [merged.2] else merged.1) ++
    [(a.length, b.length, 0)]

/-- The opcode tags of `SequenceMatcher.get_opcodes`. -/
inductive OTag where
  | equal
  | replace
  | delete
  | insert
  deriving Repr, DecidableEq

/-- `get_opcodes`: `(tag, t1_from, t1_to, t2_from, t2_to)` segments. -/
def getOpcodes (a b : List Int) : List (OTag × Nat × Nat × Nat × Nat) :=
  ((matchingBlocks a b).foldl
    (fun (acc : List (OTag × Nat × Nat × Nat × Nat) × Nat × Nat) blk =>
      let i := acc.2.1
      let j := acc.2.2
      let ops :=
        if i < blk.1 ∧ j < blk.2.1 then
          acc.1 ++ [(OTag.replace, i, blk.1, j, blk.2.1)]
        else if i < blk.1 then acc.1 ++ [(OTag.delete, i, blk.1, j, blk.2.1)]
        else if j < blk.2.1 then acc.1 ++ [(OTag.insert, i, blk.1, j, blk.2.1)]
        else acc.1
      let ops :=
        if blk.2.2 ≠ 0 then
          ops ++ [(OTag.equal, blk.1, blk.1 + blk.2.2, blk.2.1, blk.2.1 + blk.2.2)]
        else ops
      (ops, blk.1 + blk.2.2, blk.2.1 + blk.2.2))
    ([], 0, 0)).1

/-- The `Opcode` records accumulated by `_diff_ordered_iterable_by_difflib`
(`equal` opcodes carry no values). -/
structure OpcodeV where
  tag : OTag
  t1From : Nat
  t1To : Nat
  t2From : Nat
  t2To : Nat
  oldValues : Option (List Int)
  newValues : Option (List Int)
  deriving Repr, DecidableEq

/-- `_diff_ordered_iterable_by_difflib`: walk the opcodes; `replace`
re-runs the positional pairwise comparator on the sub-range; `delete` /
`insert` report one removed/added record per element at its original/new
index (these two loops have no `_count_diff` gate in the source).  Returns
the opcodes-with-values list and the records with the stats. -/
def diffOrderedByDifflib (cfg : Config) (ocfg : OCfg) (idOf : Int → Nat)
    (parents : List Nat) (t1 t2 : List Int) (st : Stats) :
    List OpcodeV × List ORec × Stats :=
  (getOpcodes t1 t2).foldl
    (fun (acc : List OpcodeV × List ORec × Stats) op =>
      let tag := op.1
      let f1 := op.2.1
      let u1 := op.2.2.1
      let f2 := op.2.2.2.1
      let u2 := op.2.2.2.2
      if tag = OTag.equal then
        (acc.1 ++ [⟨tag, f1, u1, f2, u2, none, none⟩], acc.2)
      else
        let opcodes := acc.1 ++
          [⟨tag, f1, u1, f2, u2, some (sliceList t1 f1 u1), some (sliceList t2 f2 u2)⟩]
        if tag = OTag.replace then
          let r := processPairs cfg ocfg idOf parents
            (getMatchingPairsRange ocfg t1 t2 f1 u1 f2 u2) acc.2.1 acc.2.2
          (opcodes, r.1, r.2)
        else if tag = OTag.delete then
          let recs := acc.2.1 ++ (sliceList t1 f1 u1).enum.map
            (fun p => (⟨.iterableItemRemoved, (p.1 + f1 : Int), none, some p.2, none⟩ : ORec))
          (opcodes, recs, acc.2.2)
        else
          let recs := acc.2.1 ++ (sliceList t2 f2 u2).enum.map
            (fun p => (⟨.iterableItemAdded, (p.1 + f2 : Int), none, none, some p.2⟩ : ORec))
          (opcodes, recs, acc.2.2))
    ([], [], st)

/-- `_diff_iterable_in_order` on sequences of basic hashable items (the
model domain always qualifies).  When the difflib path applies, the
pairwise pass runs only if the difflib pass produced more than one change
record, and on `len(pass1) >= len(pass2)` the pairwise result replaces the
difflib one; only when the difflib result is strictly smaller are its
opcodes recorded in `_iterable_opcodes` (the third component; `none` if
not recorded). -/
def diffIterableInOrder (cfg : Config) (ocfg : OCfg) (idOf : Int → Nat)
    (parents : List Nat) (t1 t2 : List Int) (st : Stats) :
    List ORec × Stats × Option (List OpcodeV) :=
  if ¬ ocfg.zipOrderedIterables ∧ ocfg.iterableCompareFunc.isNone then
    let p1 := diffOrderedByDifflib cfg ocfg idOf parents t1 t2 st
    if p1.2.1.length > 1 then
      let p2 := processPairs cfg ocfg idOf parents (getMatchingPairs ocfg t1 t2) [] p1.2.2
      if p1.2.1.length ≥ p2.1.length then (p2.1, p2.2, none)
      else (p1.2.1, p2.2, some p1.1)
    else (p1.2.1, p1.2.2, none)
  else
    let r := processPairs cfg ocfg idOf parents (getMatchingPairs ocfg t1 t2) [] st
    (r.1, r.2, none)

/-- The ordered comparison as claim C3 states it: the positional pairwise
comparator always runs over the whole sequence alongside the difflib pass;
the pass with fewer total change records is kept, and on a tie the
LCS-based (difflib) result is kept.  (Stated from the claim, for
comparison against `diffIterableInOrder`.) -/
def diffInOrderClaimed (cfg : Config) (ocfg : OCfg) (idOf : Int → Nat)
    (parents : List Nat) (t1 t2 : List Int) (st : Stats) : List ORec :=
  let p1 := diffOrderedByDifflib cfg ocfg idOf parents t1 t2 st
  let p2 := processPairs cfg ocfg idOf parents (getMatchingPairs ocfg t1 t2) [] p1.2.2
  if p2.1.length < p1.2.1.length then p2.1 else p1.2.1

/-! ## Unordered comparison (C2, C5, C6, C7)

`_diff_iterable_with_deephash`, `_get_most_in_common_pairs_in_iterables`,
`_get_rough_distance_of_hashed_objs` and the distance cache.  Items are
scalar Python ints; the DeepHash collaborator is the oracle `hashF`
(deterministic), `id()` is the oracle `idOf`, and the nested
`DeepDiff(removed.item, added.item, view=DELTA_VIEW)._get_rough_distance()`
run is the oracle `dd` on the hash pair (DeepHash determines the hashed
objects, so the nested run is a deterministic function of the pair; its
side effects on the shared stats are outside this embedding).  The numpy
and `iterable_compare_func` pre-calculated distance tables do not apply
(no numpy, no compare function), so every distance goes through
`_get_rough_distance_of_hashed_objs`. -/

abbrev Hash := Int

/-- `IndexedHash`: one hash bucket (every index that produced this hash,
plus the representative item). -/
structure IndexedHash where
  indexes : List Nat
  item : Int
  deriving Repr, DecidableEq

abbrev HashTable := List (Hash × IndexedHash)

/-- `DeepDiff._add_hash`. -/
def addHash (tbl : HashTable) (h : Hash) (item : Int) (i : Nat) : HashTable :=
  if tbl.any (fun e => e.1 = h) then
    tbl.map (fun e => if e.1 = h then (e.1, ⟨e.2.indexes ++ [i], e.2.item⟩) else e)
  else tbl ++ [(h, ⟨[i], item⟩)]

/-- `_create_hashtable` (no unhashable items in the model domain, so no
entry is ever dropped). -/
def createHashtable (hashF : Int → Hash) (t : List Int) : HashTable :=
  t.enum.foldl (fun tbl p => addHash tbl (hashF p.2) p.2 p.1) []

/-- The keys of a hashtable in insertion order (`OrderedSetPlus(keys)`). -/
def tableKeys (tbl : HashTable) : List Hash := tbl.map Prod.fst

/-- Hashtable lookup. -/
def tableGet (tbl : HashTable) (h : Hash) : Option IndexedHash :=
  (tbl.find? (fun e => e.1 = h)).map Prod.snd

/-- Cache keys.  `distKey k1 k2` (with `k1` the larger hash) is the
canonical order-independent encoding produced by
`_get_distance_cache_key`; `pairsKey` is the
`combine_hashes_lists(items=[added, removed], prefix='pairs_cache')` key of
`_get_most_in_common_pairs_in_iterables`.  The Python byte encodings are
injective on these shapes and the two shapes are disjoint, which the
inductive type models directly. -/
inductive CKey where
  | distKey (k1 k2 : Hash)
  | pairsKey (added removed : List Hash)
  deriving Repr, DecidableEq

/-- The symmetric pairing dictionary (`pairs`). -/
abbrev Pairs := List (Hash × Hash)

/-- A cached value: a rough distance or a pairs dictionary (the single
`_distance_cache` stores both). -/
inductive CVal where
  | dist (d : ℚ)
  | pairs (p : Pairs)
  deriving Repr, DecidableEq

structure LFUEntry where
  key : CKey
  val : CVal
  freq : Nat
  deriving Repr, DecidableEq

abbrev Cache := List LFUEntry

/-- Modelled from the spec (§4.4 DistanceCache; `lfucache.py` is not part
of the provided source): membership test of the LFU cache. -/
def cacheContains (c : Cache) (k : CKey) : Bool := c.any (fun e => e.key = k)

/-- Modelled from the spec: LFU lookup (value part). -/
def cacheGetVal (c : Cache) (k : CKey) : Option CVal :=
  (c.find? (fun e => e.key = k)).map LFUEntry.val

/-- Modelled from the spec: an LFU `get` bumps the use frequency. -/
def cacheBump (c : Cache) (k : CKey) : Cache :=
  c.map (fun e => if e.key = k then { e with freq := e.freq + 1 } else e)

/-- Modelled from the spec: minimal use frequency of the cache. -/
def cacheMinFreq : Cache → Nat
  | [] => 0
  | e :: rest => rest.foldl (fun m x => min m x.freq) e.freq

/-- Modelled from the spec: evict one least-frequently-used entry. -/
def cacheEvictOne (c : Cache) : Cache := c.eraseP (fun e => e.freq = cacheMinFreq c)

/-- Modelled from the spec: LFU `set` with capacity `cap` (evicts a
least-frequently-used entry when full). -/
def cacheSet (cap : Nat) (c : Cache) (k : CKey) (v : CVal) : Cache :=
  if c.any (fun e => e.key = k) then
    c.map (fun e => if e.key = k then { e with val := v } else e)
  else if c.length < cap then c ++ [⟨k, v, 1⟩]
  else cacheEvictOne c ++ [⟨k, v, 1⟩]

/-- `_get_distance_cache_key`: the larger hash first, so that
`(added, removed)` and `(removed, added)` share one cache entry. -/
def distCacheKey (addedHash removedHash : Hash) : CKey :=
  if addedHash > removedHash then .distKey addedHash removedHash
  else .distKey removedHash addedHash

/-- `_get_rough_distance_of_hashed_objs`: consult the distance cache when
`DISTANCE CACHE ENABLED` (cache hits bump `DISTANCE CACHE HIT COUNT`),
otherwise run the nested engine (`dd`) and populate the cache.  A `pairs`
value under a distance key cannot arise (disjoint key shapes); that dead
branch recomputes. -/
def getRoughDistance (cfg : Config) (dd : Hash → Hash → ℚ) (st : Stats)
    (cache : Cache) (addedHash removedHash : Hash) : ℚ × Stats × Cache :=
  if st.distanceCacheEnabled then
    let key := distCacheKey addedHash removedHash
    if cacheContains cache key then
      let st := { st with distanceCacheHitCount := st.distanceCacheHitCount + 1 }
      match cacheGetVal cache key with
      | some (.dist d) => (d, st, cacheBump cache key)
      | _ =>
        let d := dd addedHash removedHash
        (d, st, cacheSet cfg.cacheSize (cacheBump cache key) key (.dist d))
    else
      let d := dd addedHash removedHash
      (d, st, cacheSet cfg.cacheSize cache key (.dist d))
  else (dd addedHash removedHash, st, cache)

/-- Insertion-ordered dictionary update (Python `dict` semantics): modify
the value under `k` in place when present, otherwise append `(k, f init)`. -/
def updateOrAppend {α β : Type} [DecidableEq α] (l : List (α × β)) (k : α)
    (f : β → β) (init : β) : List (α × β) :=
  if l.any (fun e => e.1 = k) then
    l.map (fun e => if e.1 = k then (e.1, f e.2) else e)
  else l ++ [(k, f init)]

/-- Python `dict` lookup. -/
def lookupAssoc {α β : Type} [DecidableEq α] (l : List (α × β)) (k : α) :
    Option β :=
  (l.find? (fun e => e.1 = k)).map Prod.snd

/-- `most_in_common_pairs[added_hash]`: an insertion-ordered map from
distance to an `OrderedSetPlus` of removed hashes. -/
abbrev DistMap := List (ℚ × List Hash)

/-- An insertion-ordered map from added hash to its `DistMap`. -/
abbrev MICP := List (Hash × DistMap)

/-- `defaultdict(OrderedSetPlus)` insertion:
`map[d].add(h)` (ordered-set add). -/
def distMapAdd (dm : DistMap) (d : ℚ) (h : Hash) : DistMap :=
  updateOrAppend dm d (fun s => if h ∈ s then s else s ++ [h]) []

/-- `most_in_common_pairs[a][d].add(r)`. -/
def micpAdd (m : MICP) (a : Hash) (d : ℚ) (r : Hash) : MICP :=
  updateOrAppend m a (fun dm => distMapAdd dm d r) []

/-- Lookup in a `MICP` (`defaultdict` read; a missing key is empty). -/
def micpGet (m : MICP) (a : Hash) : DistMap :=
  (lookupAssoc m a).getD []

/-- Lookup in a `DistMap` (a missing distance is the empty set). -/
def distMapGet (dm : DistMap) (d : ℚ) : List Hash :=
  (lookupAssoc dm d).getD []

/-- One step of the candidate double loop of
`_get_most_in_common_pairs_in_iterables`, for the added hash `a` and the
removed hash `r`: skip when the removed item's id is in `parents_ids`
(loop detection), compute the rough distance, discard the candidate when
`distance >= cutoff_distance_for_pairs`, otherwise record it. -/
def micpStep (cfg : Config) (dd : Hash → Hash → ℚ) (idOf : Int → Nat)
    (parents : List Nat) (t1tbl : HashTable) (a : Hash)
    (acc : MICP × Stats × Cache) (r : Hash) : MICP × Stats × Cache :=
  match tableGet t1tbl r with
  | none => acc  -- removed hashes always have a t1 bucket
  | some removedObj =>
    if idOf removedObj.item ∈ parents then acc
    else
      let q := getRoughDistance cfg dd acc.2.1 acc.2.2 a r
      if q.1 ≥ cfg.cutoffDistanceForPairs then (acc.1, q.2)
      else (micpAdd acc.1 a q.1 r, q.2)

/-- The candidate double loop of `_get_most_in_common_pairs_in_iterables`. -/
def buildMICP (cfg : Config) (dd : Hash → Hash → ℚ) (idOf : Int → Nat)
    (parents : List Nat) (hashesAdded hashesRemoved : List Hash)
    (t1tbl : HashTable) (st : Stats) (cache : Cache) : MICP × Stats × Cache :=
  hashesAdded.foldl
    (fun acc a => hashesRemoved.foldl (micpStep cfg dd idOf parents t1tbl a) acc)
    ([], st, cache)

/-- `distances_to_from_hashes`: for each added hash of the candidate map in
insertion order, index it under each of its distances. -/
def buildDTF (m : MICP) : DistMap :=
  m.foldl (fun dtf e => e.2.foldl (fun dtf de => distMapAdd dtf de.1 e.1) dtf) []

/-- Ascending insertion into a sorted list (for Python `sorted(...)`). -/
def insertSortedQ (x : ℚ) : List ℚ → List ℚ
  | [] => [x]
  | y :: ys => if x ≤ y then x :: y :: ys else y :: insertSortedQ x ys

/-- Python `sorted` on rationals (the keys are distinct, so stability is
irrelevant). -/
def sortQ (l : List ℚ) : List ℚ := l.foldr insertSortedQ []

/-- `pairs[k] = v` on the dictionary representation. -/
def assocSet (p : Pairs) (k v : Hash) : Pairs :=
  updateOrAppend p k (fun _ => v) v

/-- `pairs.get(k)`. -/
def pairsGet (p : Pairs) (k : Hash) : Option Hash :=
  lookupAssoc p k

/-- The inner `while to_hashes:` loop: pop every candidate in order; each
one not yet used marks both hashes used and (re)assigns
`pairs[from_hash] = to_hash` (the loop does not stop at the first
success). -/
def greedyInner (f : Hash) (toHashes : List Hash)
    (acc : List Hash × Pairs) : List Hash × Pairs :=
  toHashes.foldl
    (fun acc t =>
      if t ∈ acc.1 then acc else (f :: t :: acc.1, assocSet acc.2 f t))
    acc

/-- The state of the distance-tiered greedy matching loops (distances
ascending, then the `while from_hashes:` loop over that tier's added
hashes): the `used_to_hashes` set and the `pairs` dictionary. -/
def greedyState (m : MICP) (dtf : DistMap) (sortedDists : List ℚ) :
    List Hash × Pairs :=
  sortedDists.foldl
    (fun (acc : List Hash × Pairs) d =>
      (distMapGet dtf d).foldl
        (fun acc f =>
          if f ∈ acc.1 then acc
          else greedyInner f (distMapGet (micpGet m f) d) acc)
        acc)
    ([], [])

/-- The `pairs` produced by the greedy matching loops. -/
def greedyPairs (m : MICP) (dtf : DistMap) (sortedDists : List ℚ) : Pairs :=
  (greedyState m dtf sortedDists).2

/-- `inverse_pairs = ...; pairs.update(inverse_pairs)`. -/
def symmetrizePairs (p : Pairs) : Pairs :=
  p.foldl (fun acc e => assocSet acc e.2 e.1) p

/-- `_get_most_in_common_pairs_in_iterables`: consult the pairs cache,
otherwise build the candidate map, group by ascending distance, run the
greedy matcher, record the pairing symmetrically, and populate the pairs
cache. -/
def getMostInCommonPairs (cfg : Config) (dd : Hash → Hash → ℚ)
    (idOf : Int → Nat) (hashesAdded hashesRemoved : List Hash)
    (t1tbl : HashTable) (parents : List Nat) (st : Stats) (cache : Cache) :
    Pairs × Stats × Cache :=
  let key := CKey.pairsKey hashesAdded hashesRemoved
  let hit : Option Pairs :=
    if st.distanceCacheEnabled ∧ cacheContains cache key then
      match cacheGetVal cache key with
      | some (.pairs p) => some p
      | _ => none  -- a distance value under a pairs key cannot arise
    else none
  match hit with
  | some p => (p, st, cacheBump cache key)
  | none =>
    let b := buildMICP cfg dd idOf parents hashesAdded hashesRemoved t1tbl st cache
    let m := b.1
    let dtf := buildDTF m
    let merged := symmetrizePairs (greedyPairs m dtf (sortQ (dtf.map Prod.fst)))
    let cache :=
      if b.2.1.distanceCacheEnabled then
        cacheSet cfg.cacheSize b.2.2 key (.pairs merged)
      else b.2.2
    (merged, b.2.1, cache)

/-- A change record of the unordered model.  `param` is the index
(`child_relationship_param`), `old`/`new` the t1/t2 values (`none` is
`notpresent`); the four `rep*` fields are the `additional['repetition']`
payload of `repetition_change` records. -/
structure URec where
  kind : RKind
  param : Nat
  old : Option Int
  new : Option Int
  repOld : Option Nat
  repNew : Option Nat
  repOldIndexes : Option (List Nat)
  repNewIndexes : Option (List Nat)
  deriving Repr, DecidableEq

/-- A plain (non-repetition) record. -/
def mkURec (kind : RKind) (param : Nat) (old new : Option Int) : URec :=
  ⟨kind, param, old, new, none, none, none, none⟩

/-- `get_other_pair`: pop the counterpart of `h` from the symmetric pairs
dictionary; when paired, also delete the reverse direction, remove the
counterpart from the other side's hash list and look its bucket up in
`tbl`.  Returns `none` for `notpresent` (unpaired). -/
def getOtherPair (pairs : Pairs) (tbl : HashTable) (otherHashes : List Hash)
    (h : Hash) : Option IndexedHash × Pairs × List Hash :=
  match pairsGet pairs h with
  | none => (none, pairs, otherHashes)
  | some other =>
    let pairs := (pairs.filter (fun e => ¬ e.1 = h)).filter (fun e => ¬ e.1 = other)
    (tableGet tbl other, pairs, otherHashes.erase other)

/-- The recursive `self._diff(change_level, ...)` on two paired scalar
items (index `i`): `_count_diff`, then the default number comparison. -/
def childDiffAtomU (cfg : Config) (i : Nat) (x y : Int) (st : Stats) :
    List URec × Stats :=
  let c := countDiff cfg st
  if c.2 then ([], c.1)
  else if x = y then ([], c.1)
  else ([mkURec .valuesChanged i (some x) (some y)], c.1)

/-- The `for hash_value in hashes_added` reporting loop
(`report_repetition=False` branch): gate on `_count_diff`, pop the pair,
report `iterable_item_added` at the first t2 index when unpaired, or
descend into the paired items at the first t1 index. -/
def addedLoopU (cfg : Config) (t1tbl t2tbl : HashTable) :
    List Hash → Pairs → List Hash → List URec → Stats →
    List URec × Stats × Pairs × List Hash × Bool
  | [], pairs, hashesRemoved, recs, st => (recs, st, pairs, hashesRemoved, false)
  | h :: rest, pairs, hashesRemoved, recs, st =>
    let c := countDiff cfg st
    if c.2 then (recs, c.1, pairs, hashesRemoved, true)
    else
      let st := c.1
      let g := getOtherPair pairs t1tbl hashesRemoved h
      let t2item := ((tableGet t2tbl h).map IndexedHash.item).getD 0
      match g.1 with
      | none =>
        let index := (((tableGet t2tbl h).map IndexedHash.indexes).getD []).headD 0
        addedLoopU cfg t1tbl t2tbl rest g.2.1 g.2.2
          (recs ++ [mkURec .iterableItemAdded index none (some t2item)]) st
      | some other =>
        let index := other.indexes.headD 0
        let r := childDiffAtomU cfg index other.item t2item st
        addedLoopU cfg t1tbl t2tbl rest g.2.1 g.2.2 (recs ++ r.1) r.2

/-- The `for hash_value in hashes_removed` reporting loop
(`report_repetition=False` branch). -/
def removedLoopU (cfg : Config) (t1tbl t2tbl : HashTable) :
    List Hash → Pairs → List Hash → List URec → Stats → List URec × Stats
  | [], _, _, recs, st => (recs, st)
  | h :: rest, pairs, hashesAdded, recs, st =>
    let c := countDiff cfg st
    if c.2 then (recs, c.1)
    else
      let st := c.1
      let g := getOtherPair pairs t2tbl hashesAdded h
      let t1item := ((tableGet t1tbl h).map IndexedHash.item).getD 0
      let index := (((tableGet t1tbl h).map IndexedHash.indexes).getD []).headD 0
      match g.1 with
      | none =>
        removedLoopU cfg t1tbl t2tbl rest g.2.1 g.2.2
          (recs ++ [mkURec .iterableItemRemoved index (some t1item) none]) st
      | some other =>
        -- dead in practice (pairs are consumed by the added loop); kept as in the source
        let r := childDiffAtomU cfg index t1item other.item st
        removedLoopU cfg t1tbl t2tbl rest g.2.1 g.2.2 (recs ++ r.1) r.2

/-- The `for hash_value in hashes_added` reporting loop
(`report_repetition=True` branch): one record / child diff per index. -/
def addedLoopRepU (cfg : Config) (t1tbl t2tbl : HashTable) :
    List Hash → Pairs → List Hash → List URec → Stats →
    List URec × Stats × Pairs × List Hash × Bool
  | [], pairs, hashesRemoved, recs, st => (recs, st, pairs, hashesRemoved, false)
  | h :: rest, pairs, hashesRemoved, recs, st =>
    let c := countDiff cfg st
    if c.2 then (recs, c.1, pairs, hashesRemoved, true)
    else
      let st := c.1
      let g := getOtherPair pairs t1tbl hashesRemoved h
      let t2item := ((tableGet t2tbl h).map IndexedHash.item).getD 0
      match g.1 with
      | none =>
        let indexes := ((tableGet t2tbl h).map IndexedHash.indexes).getD []
        addedLoopRepU cfg t1tbl t2tbl rest g.2.1 g.2.2
          (recs ++ indexes.map (fun i => mkURec .iterableItemAdded i none (some t2item))) st
      | some other =>
        let r := other.indexes.foldl
          (fun (acc : List URec × Stats) i =>
            let r := childDiffAtomU cfg i other.item t2item acc.2
            (acc.1 ++ r.1, r.2))
          (recs, st)
        addedLoopRepU cfg t1tbl t2tbl rest g.2.1 g.2.2 r.1 r.2

/-- The `for hash_value in hashes_removed` reporting loop
(`report_repetition=True` branch). -/
def removedLoopRepU (cfg : Config) (t1tbl t2tbl : HashTable) :
    List Hash → Pairs → List Hash → List URec → Stats → List URec × Stats
  | [], _, _, recs, st => (recs, st)
  | h :: rest, pairs, hashesAdded, recs, st =>
    let c := countDiff cfg st
    if c.2 then (recs, c.1)
    else
      let st := c.1
      let g := getOtherPair pairs t2tbl hashesAdded h
      let t1item := ((tableGet t1tbl h).map IndexedHash.item).getD 0
      let indexes := ((tableGet t1tbl h).map IndexedHash.indexes).getD []
      match g.1 with
      | none =>
        removedLoopRepU cfg t1tbl t2tbl rest g.2.1 g.2.2
          (recs ++ indexes.map (fun i => mkURec .iterableItemRemoved i (some t1item) none)) st
      | some other =>
        -- dead in practice; kept as in the source
        let r := indexes.foldl
          (fun (acc : List URec × Stats) i =>
            let r := childDiffAtomU cfg i t1item other.item acc.2
            (acc.1 ++ r.1, r.2))
          (recs, st)
        removedLoopRepU cfg t1tbl t2tbl rest g.2.1 g.2.2 r.1 r.2

/-- The `items_intersect` repetition loop (`report_repetition=True`): a
`repetition_change` record whenever a shared hash repeats a different
number of times on the two sides (no `_count_diff` gate in the source). -/
def repetitionLoopU (t1tbl t2tbl : HashTable) (itemsIntersect : List Hash)
    (recs : List URec) : List URec :=
  itemsIntersect.foldl
    (fun recs h =>
      let e1 := ((tableGet t1tbl h).map IndexedHash.indexes).getD []
      let e2 := ((tableGet t2tbl h).map IndexedHash.indexes).getD []
      if e1.length ≠ e2.length then
        let item := ((tableGet t1tbl h).map IndexedHash.item).getD 0
        recs ++ [⟨.repetitionChange, e1.headD 0, some item, some item,
                  some e1.length, some e2.length, some e1, some e2⟩]
      else recs)
    recs

/-- The `hashes_added` of `_diff_iterable_with_deephash` (t2-order set
difference of the hash key sets). -/
def hashesAddedOf (hashF : Int → Hash) (t1 t2 : List Int) : List Hash :=
  let t1Hashes := tableKeys (createHashtable hashF t1)
  (tableKeys (createHashtable hashF t2)).filter (fun h => ¬ h ∈ t1Hashes)

/-- The `hashes_removed` of `_diff_iterable_with_deephash`. -/
def hashesRemovedOf (hashF : Int → Hash) (t1 t2 : List Int) : List Hash :=
  let t2Hashes := tableKeys (createHashtable hashF t2)
  (tableKeys (createHashtable hashF t1)).filter (fun h => ¬ h ∈ t2Hashes)

/-- The pairing cost ratio of `_diff_iterable_with_deephash`:
`(len(hashes_added) + len(hashes_removed)) /
(len(full_t1_hashtable) + len(full_t2_hashtable) + 1)`. -/
def pairingRatio (hashF : Int → Hash) (t1 t2 : List Int) : ℚ :=
  ((hashesAddedOf hashF t1 t2).length + (hashesRemovedOf hashF t1 t2).length : ℚ) /
    ((createHashtable hashF t1).length + (createHashtable hashF t2).length + 1 : ℚ)

/-- The "skip pairing" decision (`get_pairs = False` exactly when the
ratio exceeds `cutoff_intersection_for_pairs`). -/
def pairingSkipped (cfg : Config) (hashF : Int → Hash) (t1 t2 : List Int) : Bool :=
  pairingRatio hashF t1 t2 > cfg.cutoffIntersectionForPairs

/-- The pairs-selection phase of `_diff_iterable_with_deephash`: the
cutoff decision, then the `max_passes` gate (warn once when exhausted)
around `_get_most_in_common_pairs_in_iterables`. -/
def pairsPhase (cfg : Config) (dd : Hash → Hash → ℚ) (hashF : Int → Hash)
    (idOf : Int → Nat) (t1 t2 : List Int) (t1tbl : HashTable)
    (parents : List Nat) (st : Stats) (cache : Cache) :
    Pairs × Stats × Cache :=
  let getPairs := ¬ pairingSkipped cfg hashF t1 t2
  if st.passesCount < cfg.maxPasses ∧ getPairs then
    let st := { st with passesCount := st.passesCount + 1 }
    getMostInCommonPairs cfg dd idOf (hashesAddedOf hashF t1 t2)
      (hashesRemovedOf hashF t1 t2) t1tbl parents st cache
  else if getPairs then
    let st :=
      if ¬ st.maxPassLimitReached then
        { st with maxPassLimitReached := true, warningCount := st.warningCount + 1 }
      else st
    ([], st, cache)
  else ([], st, cache)

/-- The reporting phase of `_diff_iterable_with_deephash`, given the
pairing: the added and removed loops (and, with `report_repetition`, the
per-index variants plus the repetition loop). -/
def reportPhaseU (cfg : Config) (hashF : Int → Hash) (t1 t2 : List Int)
    (pairs : Pairs) (st : Stats) : List URec × Stats :=
  let fullT1 := createHashtable hashF t1
  let fullT2 := createHashtable hashF t2
  let hashesAdded := hashesAddedOf hashF t1 t2
  let hashesRemoved := hashesRemovedOf hashF t1 t2
  let t1tbl := if cfg.reportRepetition then fullT1
    else fullT1.filter (fun e => e.1 ∈ hashesRemoved)
  let t2tbl := if cfg.reportRepetition then fullT2
    else fullT2.filter (fun e => e.1 ∈ hashesAdded)
  if cfg.reportRepetition then
    let r := addedLoopRepU cfg t1tbl t2tbl hashesAdded pairs hashesRemoved [] st
    if r.2.2.2.2 then (r.1, r.2.1)
    else
      let r2 := removedLoopRepU cfg t1tbl t2tbl r.2.2.2.1 r.2.2.1 hashesAdded r.1 r.2.1
      let t1Hashes := tableKeys fullT1
      let itemsIntersect := (tableKeys fullT2).filter (fun h => h ∈ t1Hashes)
      (repetitionLoopU t1tbl t2tbl itemsIntersect r2.1, r2.2)
  else
    let r := addedLoopU cfg t1tbl t2tbl hashesAdded pairs hashesRemoved [] st
    if r.2.2.2.2 then (r.1, r.2.1)
    else removedLoopU cfg t1tbl t2tbl r.2.2.2.1 r.2.2.1 hashesAdded r.1 r.2.1

/-- `_diff_iterable_with_deephash`: hashtables, set difference, the
pairing decision and pairing, then reporting. -/
def diffIterableWithDeephash (cfg : Config) (dd : Hash → Hash → ℚ)
    (hashF : Int → Hash) (idOf : Int → Nat) (t1 t2 : List Int)
    (parents : List Nat) (st : Stats) (cache : Cache) :
    List URec × Stats × Cache :=
  let fullT1 := createHashtable hashF t1
  let hashesRemoved := hashesRemovedOf hashF t1 t2
  let t1tbl := if cfg.reportRepetition then fullT1
    else fullT1.filter (fun e => e.1 ∈ hashesRemoved)
  let p := pairsPhase cfg dd hashF idOf t1 t2 t1tbl parents st cache
  let r := reportPhaseU cfg hashF t1 t2 p.1 p.2.1
  (r.1, r.2, p.2.2)

/-- The pairing step as C7 states it ("first-encountered-wins inside each
distance tier"): identical to the greedy inner loop except that the scan
stops at the first still-unmatched candidate.  (Stated from the claim, for
comparison against `greedyInner`.) -/
def greedyInnerFirstWins (f : Hash) : List Hash → List Hash × Pairs → List Hash × Pairs
  | [], acc => acc
  | t :: rest, acc =>
    if t ∈ acc.1 then greedyInnerFirstWins f rest acc
    else (f :: t :: acc.1, assocSet acc.2 f t)

/-- The distance-tiered greedy matcher under the first-encountered-wins
reading of C7. -/
def greedyPairsFirstWins (m : MICP) (dtf : DistMap) (sortedDists : List ℚ) : Pairs :=
  (sortedDists.foldl
    (fun (acc : List Hash × Pairs) d =>
      (distMapGet dtf d).foldl
        (fun acc f =>
          if f ∈ acc.1 then acc
          else greedyInnerFirstWins f (distMapGet (micpGet m f) d) acc)
        acc)
    ([], [])).2

/-! ## Analysis definitions used by the theorem statements -/

/-- The default configuration with a diff budget of `m`. -/
def budgetCfg (m : Nat) : Config := { defaultConfig with maxDiffs := some m }

/-- The closed form of the stats after `n` `_count_diff` calls under
`budgetCfg m`: the counter climbs to `m + 1`; the `(m+2)`-th call crosses
the budget, warns once and sets the flag; everything after is inert. -/
def budgetState (m : Nat) (n : Nat) : Stats :=
  if n ≤ m + 1 then { initStats (budgetCfg m) with diffCount := n }
  else { initStats (budgetCfg m) with
           diffCount := m + 1
           maxDiffLimitReached := true
           warningCount := 1 }

/-- The stats fields that influence the emitted records (the two budget
gates): everything except the distance-cache bookkeeping. -/
structure StatsCore where
  passesCount : Nat
  diffCount : Nat
  maxPassLimitReached : Bool
  maxDiffLimitReached : Bool
  warningCount : Nat
  deriving Repr, DecidableEq

/-- Projection of `Stats` onto its record-relevant core. -/
def Stats.core (st : Stats) : StatsCore :=
  ⟨st.passesCount, st.diffCount, st.maxPassLimitReached,
   st.maxDiffLimitReached, st.warningCount⟩

/-- One candidate step with the distance taken from the oracle directly
(the cache-free reference the cached loop refines). -/
def micpPureStep (cutoff : ℚ) (dd : Hash → Hash → ℚ) (idOf : Int → Nat)
    (parents : List Nat) (t1tbl : HashTable) (a : Hash) (m : MICP)
    (r : Hash) : MICP :=
  match tableGet t1tbl r with
  | none => m
  | some removedObj =>
    if idOf removedObj.item ∈ parents then m
    else if dd a r ≥ cutoff then m
    else micpAdd m a (dd a r) r

/-- The candidate double loop of
`_get_most_in_common_pairs_in_iterables` with the distances taken from the
oracle directly (the cache-free reference the cached loop refines). -/
def buildMICPPure (cutoff : ℚ) (dd : Hash → Hash → ℚ) (idOf : Int → Nat)
    (parents : List Nat) (hashesAdded hashesRemoved : List Hash)
    (t1tbl : HashTable) : MICP :=
  hashesAdded.foldl
    (fun m a => hashesRemoved.foldl (micpPureStep cutoff dd idOf parents t1tbl a) m)
    []

/-- The pairing computation without the cache: candidates, distance tiers
ascending, the greedy matcher, the symmetric closure. -/
def getMostInCommonPairsPure (cutoff : ℚ) (dd : Hash → Hash → ℚ)
    (idOf : Int → Nat) (parents : List Nat)
    (hashesAdded hashesRemoved : List Hash) (t1tbl : HashTable) : Pairs :=
  let m := buildMICPPure cutoff dd idOf parents hashesAdded hashesRemoved t1tbl
  let dtf := buildDTF m
  symmetrizePairs (greedyPairs m dtf (sortQ (dtf.map Prod.fst)))

/-- The pairing computation under C7's first-encountered-wins tie-break
(stated from the claim, for comparison against the source pairing). -/
def getMostInCommonPairsFirstWins (cutoff : ℚ) (dd : Hash → Hash → ℚ)
    (idOf : Int → Nat) (parents : List Nat)
    (hashesAdded hashesRemoved : List Hash) (t1tbl : HashTable) : Pairs :=
  let m := buildMICPPure cutoff dd idOf parents hashesAdded hashesRemoved t1tbl
  let dtf := buildDTF m
  symmetrizePairs (greedyPairsFirstWins m dtf (sortQ (dtf.map Prod.fst)))

/-- The plain (pairing-free) added reports: one `iterable_item_added` per
added hash at its first t2 index. -/
def plainAddedRecords (t2tbl : HashTable) (hashesAdded : List Hash) : List URec :=
  hashesAdded.map (fun h =>
    mkURec .iterableItemAdded
      ((((tableGet t2tbl h).map IndexedHash.indexes).getD []).headD 0)
      none (some (((tableGet t2tbl h).map IndexedHash.item).getD 0)))

/-- The plain (pairing-free) removed reports. -/
def plainRemovedRecords (t1tbl : HashTable) (hashesRemoved : List Hash) : List URec :=
  hashesRemoved.map (fun h =>
    mkURec .iterableItemRemoved
      ((((tableGet t1tbl h).map IndexedHash.indexes).getD []).headD 0)
      (some (((tableGet t1tbl h).map IndexedHash.item).getD 0)) none)

/-- Correctness of the distance entries of the cache with respect to the
oracle: every entry stored under a distance key holds the oracle's value
for that hash pair. -/
def DistEntriesOk (dd : Hash → Hash → ℚ) (c : Cache) : Prop :=
  ∀ e ∈ c, ∀ k1 k2 : Hash, e.key = .distKey k1 k2 → e.val = .dist (dd k1 k2)

/-- The running invariant of the greedy matching loops: the pairs built so
far form a dictionary whose keys are distinct, whose pairs all satisfy the
candidate predicate `C` and are marked used, and whose values are assigned
at most once. -/
def PairsInv (C : Hash → Hash → Prop) (used : List Hash) (p : Pairs) : Prop :=
  (p.map Prod.fst).Nodup ∧
  ∀ k v, pairsGet p k = some v →
    k ∈ used ∧ v ∈ used ∧ C k v ∧ ∀ k', ¬ k' = k → ¬ pairsGet p k' = some v

/-- Reverse lookup in a pairs dictionary (the key of the first entry with
the given value). -/
def invGet (p : Pairs) (x : Hash) : Option Hash :=
  (p.find? (fun e => e.2 = x)).map Prod.fst

theorem autoOffCache_core (st : Stats) : (autoOffCache st).core = st.core := by
  unfold autoOffCache
  dsimp only
  split_ifs <;> rfl

theorem autoTuneStage_core (cfg : Config) (st : Stats) (b : Bool) :
    (autoTuneStage cfg st b).core = st.core := by
  unfold autoTuneStage
  split_ifs <;> first | rfl | exact autoOffCache_core st

theorem autoTuneCache_core (cfg : Config) (st : Stats) :
    (autoTuneCache cfg st).core = st.core := by
  unfold autoTuneCache
  dsimp only
  split_ifs <;> exact autoTuneStage_core cfg st _

theorem countDiff_stop_iff (cfg : Config) (st : Stats) (m : Nat)
    (h : cfg.maxDiffs = some m) :
    (countDiff cfg st).2 = true ↔ m < st.diffCount := by
  unfold countDiff
  rw [h]
  dsimp only
  split_ifs with h1 <;> simp_all

theorem countDiff_diffCount (cfg : Config) (st : Stats) :
    (countDiff cfg st).1.diffCount =
      if (countDiff cfg st).2 then st.diffCount else st.diffCount + 1 := by
  have hoff : ∀ s : Stats, (autoTuneCache cfg s).diffCount = s.diffCount := by
    intro s
    exact congrArg StatsCore.diffCount (autoTuneCache_core cfg s)
  unfold countDiff
  cases hm : cfg.maxDiffs with
  | none => dsimp only; split_ifs <;> simp_all [hoff]
  | some m => dsimp only; split_ifs <;> simp_all [hoff]

theorem countDiff_core_congr (cfg1 cfg2 : Config) (st1 st2 : Stats)
    (hm : cfg1.maxDiffs = cfg2.maxDiffs) (hc : st1.core = st2.core) :
    (countDiff cfg1 st1).1.core = (countDiff cfg2 st2).1.core ∧
      (countDiff cfg1 st1).2 = (countDiff cfg2 st2).2 := by
  have h1 : st1.passesCount = st2.passesCount := congrArg StatsCore.passesCount hc
  have h2 : st1.diffCount = st2.diffCount := congrArg StatsCore.diffCount hc
  have h3 : st1.maxPassLimitReached = st2.maxPassLimitReached :=
    congrArg StatsCore.maxPassLimitReached hc
  have h4 : st1.maxDiffLimitReached = st2.maxDiffLimitReached :=
    congrArg StatsCore.maxDiffLimitReached hc
  have h5 : st1.warningCount = st2.warningCount := congrArg StatsCore.warningCount hc
  have ht1 : ∀ s : Stats, (autoTuneCache cfg1 s).core = s.core := autoTuneCache_core cfg1
  have ht2 : ∀ s : Stats, (autoTuneCache cfg2 s).core = s.core := autoTuneCache_core cfg2
  unfold countDiff
  rw [← hm]
  cases hmm : cfg1.maxDiffs with
  | none =>
    dsimp only
    constructor
    · split_ifs <;> (try rw [ht1]) <;> (try rw [ht2]) <;>
        simp [Stats.core, h1, h2, h3, h4, h5]
    · split_ifs <;> rfl
  | some m =>
    dsimp only
    rw [h2, h4]
    constructor
    · split_ifs <;> (try rw [ht1]) <;> (try rw [ht2]) <;>
        simp [Stats.core, h1, h2, h3, h4, h5]
    · split_ifs <;> rfl

theorem countDiff_inc (cfg : Config) (st : Stats) (m : Nat)
    (hm : cfg.maxDiffs = some m) (hc : cfg.cacheSize = 0)
    (h : ¬ st.diffCount > m) :
    countDiff cfg st = ({ st with diffCount := st.diffCount + 1 }, false) := by
  unfold countDiff
  rw [hm]
  dsimp only
  rw [if_neg h, if_neg (by simp [hc])]

theorem countDiff_stop_warn (cfg : Config) (st : Stats) (m : Nat)
    (hm : cfg.maxDiffs = some m) (h : st.diffCount > m)
    (hf : st.maxDiffLimitReached = false) :
    countDiff cfg st =
      ({ st with maxDiffLimitReached := true, warningCount := st.warningCount + 1 }, true) := by
  unfold countDiff
  rw [hm]
  dsimp only
  rw [if_pos h, if_neg (by simp [hf])]

theorem countDiff_stop_flagged (cfg : Config) (st : Stats) (m : Nat)
    (hm : cfg.maxDiffs = some m) (h : st.diffCount > m)
    (hf : st.maxDiffLimitReached = true) :
    countDiff cfg st = (st, true) := by
  unfold countDiff
  rw [hm]
  dsimp only
  rw [if_pos h, if_pos hf]

theorem budgetState_zero (m : Nat) : budgetState m 0 = initStats (budgetCfg m) := by
  unfold budgetState
  rw [if_pos (by omega)]
  rfl

theorem budgetState_low (m k : Nat) (h : k ≤ m + 1) :
    budgetState m k = { initStats (budgetCfg m) with diffCount := k } := by
  unfold budgetState
  rw [if_pos h]

theorem budgetState_high (m k : Nat) (h : ¬ k ≤ m + 1) :
    budgetState m k = { initStats (budgetCfg m) with diffCount := m + 1, maxDiffLimitReached := true, warningCount := 1 } := by
  unfold budgetState
  rw [if_neg h]

theorem countDiff_budgetState (m k : Nat) :
    (countDiff (budgetCfg m) (budgetState m k)).1 = budgetState m (k + 1) := by
  by_cases hk2 : k ≤ m
  · rw [budgetState_low m k (by omega),
       countDiff_inc _ _ m rfl rfl (by omega : ¬ k > m),
       budgetState_low m (k + 1) (by omega)]
  · by_cases hk : k ≤ m + 1
    · have hkm : k = m + 1 := by omega
      subst hkm
      rw [budgetState_low m (m + 1) (by omega),
         countDiff_stop_warn _ _ m rfl (by omega : m + 1 > m) rfl,
         budgetState_high m (m + 2) (by omega)]
      rfl
    · rw [budgetState_high m k hk,
         countDiff_stop_flagged _ _ m rfl (by omega : m + 1 > m) rfl,
         budgetState_high m (k + 1) (by omega)]

theorem iterCountDiff_budgetState (m n k : Nat) :
    iterCountDiff (budgetCfg m) n (budgetState m k) = budgetState m (k + n) := by
  induction n generalizing k with
  | zero => simp [iterCountDiff]
  | succ n ih =>
    unfold iterCountDiff
    rw [countDiff_budgetState, ih]
    congr 1
    omega

theorem iterCountDiff_budget (m n : Nat) :
    iterCountDiff (budgetCfg m) n (initStats (budgetCfg m)) = budgetState m n := by
  rw [← budgetState_zero m, iterCountDiff_budgetState]
  congr 1
  omega

/-- C1: `diff(v, v)` yields an empty report for every value, cyclic ones
included: with no custom operators the `level.t1 is level.t2` identity
short-circuit of `_diff` returns before any dispatch (any fuel suffices,
so the run terminates).  And for two distinct structurally equal
self-referential dicts `a = {'self': a}`, `b = {'self': b}`, the root diff
terminates and reports no difference: the ancestor-id set
(`parents_ids`) stops the descent at the `'self'` child, whose value id is
already on the recursion stack. -/
theorem c1_diff_reflexive_and_cycle_safe :
    (∀ (hp : Heap) (cfg : Config) (skip : List String → Bool) (fuel : Nat)
        (a : Addr) (parents : List Addr) (path : List String) (st : Stats),
        1 ≤ fuel →
        (diffH hp cfg ⟨fun _ _ => false, skip⟩ fuel a a parents path st).map Prod.fst
          = some []) ∧
    (deepDiffH [Node.dict [("self", 0)], Node.dict [("self", 1)]]
        defaultConfig noOracles 2 0 1).map Prod.fst = some [] := by
  constructor
  · intro hp cfg skip fuel a parents path st hfuel
    obtain ⟨f, rfl⟩ : ∃ f, fuel = f + 1 := ⟨fuel - 1, by omega⟩
    unfold diffH
    by_cases hstop : (countDiff cfg st).2 <;> simp [hstop]
  · rfl

theorem c1_diff_reflexive_and_cycle_safe_witness :
    (diffH [Node.int 5] defaultConfig noOracles 1 0 0 [] [] (initStats defaultConfig)).map
        Prod.fst = some [] :=
  c1_diff_reflexive_and_cycle_safe.1 [Node.int 5] defaultConfig (fun _ => false) 1 0 [] []
    (initStats defaultConfig) (by omega)

/-- C10: `_diff` consults `_count_diff` before any comparison work — also
when the level turns out identity-equal, when a custom operator takes over
and when the level is excluded by filters, the call still goes through
`_count_diff` (first conjunct of the dispatch equation); `_count_diff`
signals `StopIteration` exactly when the counter is already strictly above
`max_diffs` and increments otherwise, so from a fresh state the counter
after `n` calls is `min n (max_diffs + 1)` — it can and does reach
`max_diffs + 1`. -/
theorem c10_budget_counts_visited_levels :
    (∀ (cfg : Config) (st : Stats) (m : Nat), cfg.maxDiffs = some m →
        (((countDiff cfg st).2 = true ↔ m < st.diffCount) ∧
          ((countDiff cfg st).2 = false →
            (countDiff cfg st).1.diffCount = st.diffCount + 1))) ∧
    (∀ (hp : Heap) (cfg : Config) (ops : HOracles) (fuel : Nat) (a1 a2 : Addr)
        (parents : List Addr) (path : List String) (st : Stats),
        (a1 = a2 ∧ ops.customOp a1 a2 = false) ∨ ops.customOp a1 a2 = true ∨
          (ops.customOp a1 a2 = false ∧ ops.skip path = true) →
        diffH hp cfg ops (fuel + 1) a1 a2 parents path st
          = some ([], (countDiff cfg st).1)) ∧
    (∀ m n : Nat,
        (iterCountDiff (budgetCfg m) n (initStats (budgetCfg m))).diffCount
          = min n (m + 1)) := by
  refine ⟨?_, ?_, ?_⟩
  · intro cfg st m hm
    refine ⟨countDiff_stop_iff cfg st m hm, ?_⟩
    intro hns
    rw [countDiff_diffCount, if_neg (by simp [hns])]
  · intro hp cfg ops fuel a1 a2 parents path st hcase
    rcases hcase with ⟨he, hco⟩ | hco | ⟨hco, hsk⟩
    · subst he
      by_cases hstop : (countDiff cfg st).2 <;> simp [diffH, hstop, hco]
    · by_cases hstop : (countDiff cfg st).2 <;> simp [diffH, hstop, hco]
    · by_cases he : a1 = a2
      · subst he
        by_cases hstop : (countDiff cfg st).2 <;> simp [diffH, hstop, hco]
      · by_cases hstop : (countDiff cfg st).2 <;> simp [diffH, hstop, hco, he, hsk]
  · intro m n
    rw [iterCountDiff_budget]
    unfold budgetState
    split_ifs with h <;> simp <;> omega

theorem c10_budget_counts_visited_levels_witness :
    diffH [] (budgetCfg 1) noOracles (0 + 1) 0 0 [] [] (initStats (budgetCfg 1))
      = some ([], (countDiff (budgetCfg 1) (initStats (budgetCfg 1))).1) :=
  c10_budget_counts_visited_levels.2.1 [] (budgetCfg 1) noOracles 0 0 0 [] []
    (initStats (budgetCfg 1)) (Or.inl ⟨rfl, rfl⟩)

/-- C4: once the diff count crosses `max_diffs`, the engine warns exactly
once (the warning count after `n` `_count_diff` calls is `1` exactly when
the budget was crossed, i.e. from the `(max_diffs + 2)`-th call on, and the
`MAX DIFF LIMIT REACHED` flag is set then and stays set); a `StopIteration`
signal makes `_diff` return the partial result without producing records
and without error; concretely, diffing `{}` against `{'a': 1, 'b': 2, 'c': 3}`
with `max_diffs = 1` stops after the first added-key record, returning it
with the flag set and one warning logged. -/
theorem c4_max_diffs_warns_once_and_truncates :
    (∀ m n : Nat,
        ((iterCountDiff (budgetCfg m) n (initStats (budgetCfg m))).warningCount
            = if m + 2 ≤ n then 1 else 0) ∧
          ((iterCountDiff (budgetCfg m) n (initStats (budgetCfg m))).maxDiffLimitReached
            = decide (m + 2 ≤ n))) ∧
    (∀ (hp : Heap) (cfg : Config) (ops : HOracles) (fuel : Nat) (a1 a2 : Addr)
        (parents : List Addr) (path : List String) (st : Stats),
        (countDiff cfg st).2 = true →
        diffH hp cfg ops (fuel + 1) a1 a2 parents path st
          = some ([], (countDiff cfg st).1)) ∧
    (deepDiffH
        [Node.dict [], Node.dict [("a", 2), ("b", 3), ("c", 4)],
         Node.int 1, Node.int 2, Node.int 3]
        (budgetCfg 1) noOracles 2 0 1
      = some ([⟨.dictionaryItemAdded, ["a"]⟩],
          ⟨0, 2, 0, 0, 0, false, true, false, 0, 1⟩)) := by
  refine ⟨?_, ?_, ?_⟩
  · intro m n
    rw [iterCountDiff_budget]
    unfold budgetState
    constructor
    · split_ifs with h1 h2 h3 <;> first | rfl | omega
    · split_ifs with h1 <;> [skip; skip] <;> simp [initStats] <;> omega
  · intro hp cfg ops fuel a1 a2 parents path st hstop
    unfold diffH
    simp only [hstop, if_true]
  · rfl

theorem c4_max_diffs_warns_once_and_truncates_witness :
    diffH [] (budgetCfg 0) noOracles (0 + 1) 0 1 [] []
        ⟨0, 1, 0, 0, 0, false, false, false, 0, 0⟩
      = some ([], (countDiff (budgetCfg 0) ⟨0, 1, 0, 0, 0, false, false, false, 0, 0⟩).1) :=
  c4_max_diffs_warns_once_and_truncates.2.1 [] (budgetCfg 0) noOracles 0 0 1 [] []
    ⟨0, 1, 0, 0, 0, false, false, false, 0, 0⟩ (by decide)

/-- C9: configuration validation happens in `__init__` before any
comparison work starts: unexpected keyword arguments, an invalid
`verbose_level`, an invalid `cache_purge_level` and an out-of-range
`cutoff_distance_for_pairs` each raise a `ValueError` (checked in source
order), independently of the inputs and of the comparison engine; the
construction succeeds exactly when all four checks pass, so no invalid
value is silently clamped to a valid one. -/
theorem c9_config_errors_raise_at_construction :
    ∀ {V R : Type} (engine : V → V → R) (a : InitArgs) (t1 t2 : V),
      (a.unknownKwargs ≠ [] →
        deepDiffConstruct engine a t1 t2 = Except.error invalidParamsMsg) ∧
      (a.unknownKwargs = [] →
        ¬ (a.verboseLevel = 0 ∨ a.verboseLevel = 1 ∨ a.verboseLevel = 2) →
        deepDiffConstruct engine a t1 t2 = Except.error verboseLevelRangeMsg) ∧
      (a.unknownKwargs = [] →
        (a.verboseLevel = 0 ∨ a.verboseLevel = 1 ∨ a.verboseLevel = 2) →
        ¬ (a.cachePurgeLevel = 0 ∨ a.cachePurgeLevel = 1 ∨ a.cachePurgeLevel = 2) →
        deepDiffConstruct engine a t1 t2 = Except.error purgeLevelRangeMsg) ∧
      (a.unknownKwargs = [] →
        (a.verboseLevel = 0 ∨ a.verboseLevel = 1 ∨ a.verboseLevel = 2) →
        (a.cachePurgeLevel = 0 ∨ a.cachePurgeLevel = 1 ∨ a.cachePurgeLevel = 2) →
        (a.cutoffDistanceForPairs < 0 ∨ a.cutoffDistanceForPairs > 1) →
        deepDiffConstruct engine a t1 t2 = Except.error cutoffRangeErrorMsg) ∧
      (deepDiffConstruct engine a t1 t2 = Except.ok (engine t1 t2) ↔
        (a.unknownKwargs = [] ∧
          (a.verboseLevel = 0 ∨ a.verboseLevel = 1 ∨ a.verboseLevel = 2) ∧
          (a.cachePurgeLevel = 0 ∨ a.cachePurgeLevel = 1 ∨ a.cachePurgeLevel = 2) ∧
          ¬ (a.cutoffDistanceForPairs < 0 ∨ a.cutoffDistanceForPairs > 1))) := by
  intro V R engine a t1 t2
  unfold deepDiffConstruct validateInit
  refine ⟨?_, ?_, ?_, ?_, ?_⟩ <;>
    (try intro h1) <;> (try intro h2) <;> (try intro h3) <;> (try intro h4) <;>
    split_ifs <;> simp_all

theorem c9_config_errors_raise_at_construction_witness :
    deepDiffConstruct (fun x y : Nat => x + y) ⟨[], 7, 1, 1/2, 7/10⟩ 1 2
      = Except.error verboseLevelRangeMsg :=
  (c9_config_errors_raise_at_construction (fun x y : Nat => x + y)
      ⟨[], 7, 1, 1/2, 7/10⟩ 1 2).2.1 rfl (by decide)

/-- C8: in ordered pairwise comparison, a two-sided pair whose indices
differ and whose items are equal (or when a custom compare function is
configured) produces exactly one `iterable_item_moved` record carrying the
old and the new index — and no added/removed record for that pair — before
the loop continues; and on `a = [1,2,3]`, `b = [3,1,2]` with order
significant and an equality compare function the engine reports exactly
three moved records and zero added/removed records. -/
theorem c8_moved_detection :
    (∀ (cfg : Config) (ocfg : OCfg) (idOf : Int → Nat) (parents : List Nat)
        (i j : Int) (x y : Int)
        (rest : List ((Int × Int) × (Option Int × Option Int)))
        (recs : List ORec) (st : Stats),
        i ≠ j → (x = y ∨ ocfg.iterableCompareFunc.isSome) →
        (countDiff cfg st).2 = false →
        processPairs cfg ocfg idOf parents (((i, j), (some x, some y)) :: rest) recs st
          = processPairs cfg ocfg idOf parents rest
              (recs ++ [⟨.iterableItemMoved, i, some j, some x, some y⟩])
              (countDiff cfg st).1) ∧
    ((diffIterableInOrder defaultConfig ⟨false, some (fun a b => a == b)⟩
          (fun _ => 0) [] [1, 2, 3] [3, 1, 2] (initStats defaultConfig)).1
        = [⟨.iterableItemMoved, 0, some 1, some 1, some 1⟩,
           ⟨.iterableItemMoved, 1, some 2, some 2, some 2⟩,
           ⟨.iterableItemMoved, 2, some 0, some 3, some 3⟩]) := by
  constructor
  · intro cfg ocfg idOf parents i j x y rest recs st hij hxy hstop
    conv_lhs => rw [processPairs]
    simp [hstop, hij, hxy]
  · rfl

theorem c8_moved_detection_witness :
    processPairs defaultConfig ⟨false, none⟩ (fun _ => 0) []
        [((0, 1), (some 5, some 5))] [] (initStats defaultConfig)
      = processPairs defaultConfig ⟨false, none⟩ (fun _ => 0) [] []
          [⟨.iterableItemMoved, 0, some 1, some 5, some 5⟩]
          (countDiff defaultConfig (initStats defaultConfig)).1 :=
  c8_moved_detection.1 defaultConfig ⟨false, none⟩ (fun _ => 0) [] 0 1 5 5 [] []
    (initStats defaultConfig) (by decide) (Or.inl rfl) (by decide)

/-- C3 (amended): when the difflib alignment qualifies, the positional
pairwise pass over the whole sequence runs only if the difflib pass
produced more than one change record; when it runs, the result with fewer
records is kept, and when both passes produce equally many records the
pairwise result — not the LCS-based one — is kept; the opcodes are
recorded only when the difflib result is kept (strictly fewer records). -/
theorem c3_two_pass_selection :
    ∀ (cfg : Config) (ocfg : OCfg) (idOf : Int → Nat) (parents : List Nat)
      (t1 t2 : List Int) (st : Stats),
      ocfg.zipOrderedIterables = false → ocfg.iterableCompareFunc = none →
      (let p1 := diffOrderedByDifflib cfg ocfg idOf parents t1 t2 st
       let p2 := processPairs cfg ocfg idOf parents (getMatchingPairs ocfg t1 t2) [] p1.2.2
       let r := diffIterableInOrder cfg ocfg idOf parents t1 t2 st
       (p1.2.1.length ≤ 1 → r = (p1.2.1, p1.2.2, none)) ∧
       (1 < p1.2.1.length →
         (p2.1.length ≤ p1.2.1.length → r = (p2.1, p2.2, none)) ∧
         (p1.2.1.length < p2.1.length → r = (p1.2.1, p2.2, some p1.1)))) := by
  intro cfg ocfg idOf parents t1 t2 st hz hc
  dsimp only
  unfold diffIterableInOrder
  rw [hz, hc]
  simp only [Option.isNone_none, Bool.not_false, and_self, if_true, Bool.false_eq_true,
    not_false_eq_true, true_and, if_pos]
  constructor
  · intro hle
    rw [if_neg (by omega)]
  · intro hgt
    rw [if_pos (by omega)]
    constructor
    · intro hle2
      rw [if_pos (by omega)]
    · intro hlt2
      rw [if_neg (by omega)]

/-- C3 as stated fails on the code: at `t1 = [1,2]`, `t2 = [2,1]` both
passes produce two records, and the engine keeps the pairwise result (two
`values_changed`), not the LCS-based one (one added plus one removed) that
the claimed tie-break prescribes. -/
theorem c3_counterexample :
    diffInOrderClaimed defaultConfig ⟨false, none⟩ (fun _ => 0) [] [1, 2] [2, 1]
        (initStats defaultConfig)
      ≠ (diffIterableInOrder defaultConfig ⟨false, none⟩ (fun _ => 0) [] [1, 2] [2, 1]
          (initStats defaultConfig)).1 := by
  decide

theorem c3_two_pass_selection_witness :
    (let p1 := diffOrderedByDifflib defaultConfig ⟨false, none⟩ (fun _ => 0) [] [1] [2]
        (initStats defaultConfig)
     let p2 := processPairs defaultConfig ⟨false, none⟩ (fun _ => 0) []
        (getMatchingPairs ⟨false, none⟩ [1] [2]) [] p1.2.2
     let r := diffIterableInOrder defaultConfig ⟨false, none⟩ (fun _ => 0) [] [1] [2]
        (initStats defaultConfig)
     (p1.2.1.length ≤ 1 → r = (p1.2.1, p1.2.2, none)) ∧
     (1 < p1.2.1.length →
       (p2.1.length ≤ p1.2.1.length → r = (p2.1, p2.2, none)) ∧
       (p1.2.1.length < p2.1.length → r = (p1.2.1, p2.2, some p1.1)))) :=
  c3_two_pass_selection defaultConfig ⟨false, none⟩ (fun _ => 0) [] [1] [2]
    (initStats defaultConfig) rfl rfl

theorem countDiff_none_not_stop (cfg : Config) (st : Stats)
    (h : cfg.maxDiffs = none) : (countDiff cfg st).2 = false := by
  unfold countDiff
  rw [h]
  dsimp only
  split_ifs <;> rfl

theorem addedLoopU_nil_pairs (cfg : Config) (t1tbl t2tbl : HashTable)
    (hmd : cfg.maxDiffs = none) :
    ∀ (hashes : List Hash) (hashesRemoved : List Hash) (recs : List URec) (st : Stats),
      addedLoopU cfg t1tbl t2tbl hashes [] hashesRemoved recs st
        = (recs ++ plainAddedRecords t2tbl hashes,
           iterCountDiff cfg hashes.length st, [], hashesRemoved, false) := by
  intro hashes
  induction hashes with
  | nil => intro hr recs st; simp [addedLoopU, plainAddedRecords, iterCountDiff]
  | cons h rest ih =>
    intro hr recs st
    rw [addedLoopU]
    rw [countDiff_none_not_stop cfg st hmd]
    simp only [Bool.false_eq_true, if_false]
    have hg : getOtherPair [] t1tbl hr h = (none, [], hr) := rfl
    rw [hg]
    dsimp only
    rw [ih hr _ _]
    simp [plainAddedRecords, iterCountDiff, List.append_assoc]

theorem removedLoopU_nil_pairs (cfg : Config) (t1tbl t2tbl : HashTable)
    (hmd : cfg.maxDiffs = none) :
    ∀ (hashes : List Hash) (hashesAdded : List Hash) (recs : List URec) (st : Stats),
      removedLoopU cfg t1tbl t2tbl hashes [] hashesAdded recs st
        = (recs ++ plainRemovedRecords t1tbl hashes,
           iterCountDiff cfg hashes.length st) := by
  intro hashes
  induction hashes with
  | nil => intro ha recs st; simp [removedLoopU, plainRemovedRecords, iterCountDiff]
  | cons h rest ih =>
    intro ha recs st
    rw [removedLoopU]
    rw [countDiff_none_not_stop cfg st hmd]
    simp only [Bool.false_eq_true, if_false]
    have hg : getOtherPair [] t2tbl ha h = (none, [], ha) := rfl
    rw [hg]
    dsimp only
    rw [ih ha _ _]
    simp [plainRemovedRecords, iterCountDiff, List.append_assoc]

theorem pairsPhase_skip (cfg : Config) (dd : Hash → Hash → ℚ)
    (hashF : Int → Hash) (idOf : Int → Nat) (t1 t2 : List Int)
    (tbl : HashTable) (parents : List Nat) (st : Stats) (cache : Cache)
    (h : pairingSkipped cfg hashF t1 t2 = true) :
    pairsPhase cfg dd hashF idOf t1 t2 tbl parents st cache = ([], st, cache) := by
  unfold pairsPhase
  rw [h]
  simp

theorem reportPhaseU_nil_pairs (cfg : Config) (hashF : Int → Hash)
    (t1 t2 : List Int) (st : Stats)
    (hrep : cfg.reportRepetition = false) (hmd : cfg.maxDiffs = none) :
    (reportPhaseU cfg hashF t1 t2 [] st).1
      = plainAddedRecords
          ((createHashtable hashF t2).filter (fun e => e.1 ∈ hashesAddedOf hashF t1 t2))
          (hashesAddedOf hashF t1 t2) ++
        plainRemovedRecords
          ((createHashtable hashF t1).filter (fun e => e.1 ∈ hashesRemovedOf hashF t1 t2))
          (hashesRemovedOf hashF t1 t2) := by
  unfold reportPhaseU
  rw [hrep]
  simp only [Bool.false_eq_true, if_false]
  rw [addedLoopU_nil_pairs cfg _ _ hmd, removedLoopU_nil_pairs cfg _ _ hmd]
  simp

/-- C5: in unordered comparison, pairing is skipped exactly when
`(len(added) + len(removed)) / (len(t1 buckets) + len(t2 buckets) + 1)` is
strictly greater than `cutoff_intersection_for_pairs`: when it is, every
added/removed hash is reported as a plain add/remove (first-index,
bucket-membership form) and the result does not depend on the distance
oracle at all (no distance computation); when it is not (and the passes
budget allows), the pairing is computed by
`_get_most_in_common_pairs_in_iterables` after counting one pass. -/
theorem c5_pairing_cutoff_decision :
    ∀ (cfg : Config) (dd dd2 : Hash → Hash → ℚ) (hashF : Int → Hash)
      (idOf : Int → Nat) (t1 t2 : List Int) (parents : List Nat)
      (st : Stats) (cache : Cache),
      cfg.maxDiffs = none → cfg.reportRepetition = false →
      (cfg.cutoffIntersectionForPairs < pairingRatio hashF t1 t2 →
        ((diffIterableWithDeephash cfg dd hashF idOf t1 t2 parents st cache).1
          = plainAddedRecords
              ((createHashtable hashF t2).filter
                (fun e => e.1 ∈ hashesAddedOf hashF t1 t2))
              (hashesAddedOf hashF t1 t2) ++
            plainRemovedRecords
              ((createHashtable hashF t1).filter
                (fun e => e.1 ∈ hashesRemovedOf hashF t1 t2))
              (hashesRemovedOf hashF t1 t2)) ∧
        (diffIterableWithDeephash cfg dd hashF idOf t1 t2 parents st cache).1
          = (diffIterableWithDeephash cfg dd2 hashF idOf t1 t2 parents st cache).1) ∧
      (¬ cfg.cutoffIntersectionForPairs < pairingRatio hashF t1 t2 →
        st.passesCount < cfg.maxPasses →
        ∀ tbl : HashTable,
          pairsPhase cfg dd hashF idOf t1 t2 tbl parents st cache
            = getMostInCommonPairs cfg dd idOf (hashesAddedOf hashF t1 t2)
                (hashesRemovedOf hashF t1 t2) tbl parents
                { st with passesCount := st.passesCount + 1 } cache) := by
  intro cfg dd dd2 hashF idOf t1 t2 parents st cache hmd hrep
  constructor
  · intro hratio
    have hskip : pairingSkipped cfg hashF t1 t2 = true := by
      unfold pairingSkipped
      simpa using hratio
    have key : ∀ d : Hash → Hash → ℚ,
        (diffIterableWithDeephash cfg d hashF idOf t1 t2 parents st cache).1
          = plainAddedRecords
              ((createHashtable hashF t2).filter
                (fun e => e.1 ∈ hashesAddedOf hashF t1 t2))
              (hashesAddedOf hashF t1 t2) ++
            plainRemovedRecords
              ((createHashtable hashF t1).filter
                (fun e => e.1 ∈ hashesRemovedOf hashF t1 t2))
              (hashesRemovedOf hashF t1 t2) := by
      intro d
      unfold diffIterableWithDeephash
      dsimp only
      rw [pairsPhase_skip cfg d hashF idOf t1 t2 _ parents st cache hskip]
      dsimp only
      exact reportPhaseU_nil_pairs cfg hashF t1 t2 st hrep hmd
    exact ⟨key dd, (key dd).trans (key dd2).symm⟩
  · intro hratio hpass tbl
    have hskip : pairingSkipped cfg hashF t1 t2 = false := by
      unfold pairingSkipped
      simpa using hratio
    unfold pairsPhase
    rw [hskip]
    simp [hpass]

theorem c5_pairing_cutoff_decision_witness :
    ((diffIterableWithDeephash defaultConfig (fun _ _ => 1/10) (fun n => n)
          (fun n => n.toNat) [1, 2] [3, 4] [] (initStats defaultConfig) []).1
        = plainAddedRecords
            ((createHashtable (fun n => n) [3, 4]).filter
              (fun e => e.1 ∈ hashesAddedOf (fun n => n) [1, 2] [3, 4]))
            (hashesAddedOf (fun n => n) [1, 2] [3, 4]) ++
          plainRemovedRecords
            ((createHashtable (fun n => n) [1, 2]).filter
              (fun e => e.1 ∈ hashesRemovedOf (fun n => n) [1, 2] [3, 4]))
            (hashesRemovedOf (fun n => n) [1, 2] [3, 4])) ∧
      (diffIterableWithDeephash defaultConfig (fun _ _ => 1/10) (fun n => n)
          (fun n => n.toNat) [1, 2] [3, 4] [] (initStats defaultConfig) []).1
        = (diffIterableWithDeephash defaultConfig (fun _ _ => 9/10) (fun n => n)
            (fun n => n.toNat) [1, 2] [3, 4] [] (initStats defaultConfig) []).1 :=
  (c5_pairing_cutoff_decision defaultConfig (fun _ _ => 1/10) (fun _ _ => 9/10)
      (fun n => n) (fun n => n.toNat) [1, 2] [3, 4] [] (initStats defaultConfig) []
      rfl rfl).1 (by
        have h1 : (hashesAddedOf (fun n : Int => n) [1, 2] [3, 4]).length = 2 := rfl
        have h2 : (hashesRemovedOf (fun n : Int => n) [1, 2] [3, 4]).length = 2 := rfl
        have h3 : (createHashtable (fun n : Int => n) [1, 2]).length = 2 := rfl
        have h4 : (createHashtable (fun n : Int => n) [3, 4]).length = 2 := rfl
        unfold pairingRatio
        rw [h1, h2, h3, h4]
        norm_num [defaultConfig])

section AssocLemmas

variable {α β : Type} [DecidableEq α]

theorem lookupAssoc_nil (k : α) : lookupAssoc ([] : List (α × β)) k = none := rfl

theorem lookupAssoc_cons (e : α × β) (l : List (α × β)) (k : α) :
    lookupAssoc (e :: l) k = if e.1 = k then some e.2 else lookupAssoc l k := by
  unfold lookupAssoc
  by_cases h : e.1 = k <;> simp [List.find?, h]

theorem lookupAssoc_of_any_false (l : List (α × β)) (k : α)
    (h : ¬ l.any (fun e => e.1 = k) = true) : lookupAssoc l k = none := by
  induction l with
  | nil => rfl
  | cons e rest ih =>
    simp only [List.any_cons, Bool.or_eq_true, decide_eq_true_eq] at h
    push_neg at h
    rw [lookupAssoc_cons, if_neg h.1]
    exact ih h.2

theorem lookupAssoc_isSome_of_any (l : List (α × β)) (k : α)
    (h : l.any (fun e => e.1 = k) = true) : ∃ v, lookupAssoc l k = some v := by
  induction l with
  | nil => simp at h
  | cons e rest ih =>
    rw [lookupAssoc_cons]
    by_cases he : e.1 = k
    · exact ⟨e.2, by rw [if_pos he]⟩
    · rw [if_neg he]
      apply ih
      simp only [List.any_cons, Bool.or_eq_true] at h
      rcases h with h | h
      · exact absurd (by simpa using h) he
      · exact h

theorem lookupAssoc_append_of_none (l1 l2 : List (α × β)) (k : α)
    (h : lookupAssoc l1 k = none) : lookupAssoc (l1 ++ l2) k = lookupAssoc l2 k := by
  induction l1 with
  | nil => rfl
  | cons e rest ih =>
    rw [lookupAssoc_cons] at h
    rw [List.cons_append, lookupAssoc_cons]
    by_cases he : e.1 = k
    · rw [if_pos he] at h
      simp at h
    · rw [if_neg he] at h
      rw [if_neg he]
      exact ih h

theorem lookupAssoc_append_of_some (l1 l2 : List (α × β)) (k : α) (v : β)
    (h : lookupAssoc l1 k = some v) : lookupAssoc (l1 ++ l2) k = some v := by
  induction l1 with
  | nil => simp [lookupAssoc_nil] at h
  | cons e rest ih =>
    rw [lookupAssoc_cons] at h
    rw [List.cons_append, lookupAssoc_cons]
    by_cases he : e.1 = k
    · rw [if_pos he] at h
      rw [if_pos he]
      exact h
    · rw [if_neg he] at h
      rw [if_neg he]
      exact ih h

theorem lookupAssoc_map_update_self (l : List (α × β)) (k : α) (f : β → β) :
    lookupAssoc (l.map (fun e => if e.1 = k then (e.1, f e.2) else e)) k
      = (lookupAssoc l k).map f := by
  induction l with
  | nil => rfl
  | cons e rest ih =>
    by_cases he : e.1 = k
    · simp only [List.map_cons, if_pos he]
      rw [lookupAssoc_cons, lookupAssoc_cons]
      simp [he]
    · simp only [List.map_cons, if_neg he]
      rw [lookupAssoc_cons, lookupAssoc_cons, if_neg he, if_neg he]
      exact ih

theorem lookupAssoc_map_update_other (l : List (α × β)) (k k' : α) (f : β → β)
    (hk : ¬ k' = k) :
    lookupAssoc (l.map (fun e => if e.1 = k then (e.1, f e.2) else e)) k'
      = lookupAssoc l k' := by
  induction l with
  | nil => rfl
  | cons e rest ih =>
    by_cases he : e.1 = k
    · simp only [List.map_cons, if_pos he]
      rw [lookupAssoc_cons, lookupAssoc_cons]
      have : ¬ e.1 = k' := by rw [he]; intro h; exact hk h.symm
      simp only [this, if_false]
      exact ih
    · simp only [List.map_cons, if_neg he]
      rw [lookupAssoc_cons, lookupAssoc_cons]
      by_cases he' : e.1 = k'
      · simp [he']
      · simp only [he', if_false]
        exact ih

theorem lookupAssoc_updateOrAppend_self (l : List (α × β)) (k : α) (f : β → β) (i : β) :
    lookupAssoc (updateOrAppend l k f i) k = some (f ((lookupAssoc l k).getD i)) := by
  unfold updateOrAppend
  by_cases hany : l.any (fun e => e.1 = k)
  · rw [if_pos hany, lookupAssoc_map_update_self]
    obtain ⟨v, hv⟩ := lookupAssoc_isSome_of_any l k hany
    rw [hv]
    rfl
  · rw [if_neg hany,
       lookupAssoc_append_of_none _ _ _ (lookupAssoc_of_any_false l k hany),
       lookupAssoc_cons, if_pos rfl, lookupAssoc_of_any_false l k hany]
    rfl

theorem lookupAssoc_updateOrAppend_other (l : List (α × β)) (k k' : α)
    (f : β → β) (i : β) (hk : ¬ k' = k) :
    lookupAssoc (updateOrAppend l k f i) k' = lookupAssoc l k' := by
  unfold updateOrAppend
  by_cases hany : l.any (fun e => e.1 = k)
  · rw [if_pos hany]
    exact lookupAssoc_map_update_other l k k' f hk
  · rw [if_neg hany]
    cases hsome : lookupAssoc l k' with
    | none =>
      rw [lookupAssoc_append_of_none _ _ _ hsome, lookupAssoc_cons]
      have hkk : ¬ k = k' := fun h => hk h.symm
      rw [if_neg hkk, lookupAssoc_nil]
    | some v => rw [lookupAssoc_append_of_some _ _ _ _ hsome]

theorem updateOrAppend_keys (l : List (α × β)) (k : α) (f : β → β) (i : β) :
    (updateOrAppend l k f i).map Prod.fst
      = if l.any (fun e => e.1 = k) then l.map Prod.fst
        else l.map Prod.fst ++ [k] := by
  unfold updateOrAppend
  split_ifs with h
  · rw [List.map_map]
    apply List.map_congr_left
    intro e _
    by_cases he : e.1 = k <;> simp [he]
  · simp

theorem updateOrAppend_keys_nodup (l : List (α × β)) (k : α) (f : β → β) (i : β)
    (h : (l.map Prod.fst).Nodup) :
    ((updateOrAppend l k f i).map Prod.fst).Nodup := by
  rw [updateOrAppend_keys]
  split_ifs with hany
  · exact h
  · have hk : ¬ k ∈ l.map Prod.fst := by
      intro hmem
      obtain ⟨e, he, hek⟩ := List.mem_map.mp hmem
      have : l.any (fun e => e.1 = k) = true := List.any_eq_true.mpr ⟨e, he, by simp [hek]⟩
      exact absurd this (by simpa using hany)
    simp [List.nodup_append, h, hk]

theorem mem_updateOrAppend (l : List (α × β)) (k : α) (f : β → β) (i : β)
    (e : α × β) (he : e ∈ updateOrAppend l k f i) :
    (e ∈ l ∧ ¬ e.1 = k) ∨ e.1 = k := by
  unfold updateOrAppend at he
  split_ifs at he with hany
  · obtain ⟨x, hx, hxe⟩ := List.mem_map.mp he
    by_cases hxk : x.1 = k
    · right
      rw [← hxe]
      simp [hxk]
    · left
      have hex : e = x := by rw [← hxe]; simp [hxk]
      rw [hex]
      exact ⟨hx, hxk⟩
  · rcases List.mem_append.mp he with h | h
    · by_cases hek : e.1 = k
      · exact Or.inr hek
      · exact Or.inl ⟨h, hek⟩
    · right
      simp at h
      rw [h]

theorem lookupAssoc_mem (l : List (α × β)) (k : α) (v : β)
    (h : lookupAssoc l k = some v) : (k, v) ∈ l := by
  induction l with
  | nil => simp [lookupAssoc_nil] at h
  | cons e rest ih =>
    rw [lookupAssoc_cons] at h
    split_ifs at h with he
    · have h2 : e.2 = v := by simpa using h
      have hkv : (k, v) = e := by rw [← he, ← h2]
      rw [hkv]
      exact List.mem_cons_self e rest
    · exact List.mem_cons_of_mem _ (ih h)

theorem lookupAssoc_of_mem_nodup (l : List (α × β)) (k : α) (v : β)
    (hnd : (l.map Prod.fst).Nodup) (hmem : (k, v) ∈ l) :
    lookupAssoc l k = some v := by
  induction l with
  | nil => simp at hmem
  | cons e rest ih =>
    rw [lookupAssoc_cons]
    rcases List.mem_cons.mp hmem with h | h
    · rw [← h]
      simp
    · have hk : ¬ e.1 = k := by
        intro hek
        have : k ∈ rest.map Prod.fst := List.mem_map.mpr ⟨(k, v), h, rfl⟩
        simp only [List.map_cons, List.nodup_cons] at hnd
        exact hnd.1 (hek ▸ this)
      rw [if_neg hk]
      exact ih (by simp only [List.map_cons, List.nodup_cons] at hnd; exact hnd.2) h

end AssocLemmas

theorem foldl_invariant {α β : Type} (P : β → Prop) (f : β → α → β)
    (l : List α) (b : β) (hb : P b)
    (hf : ∀ b a, a ∈ l → P b → P (f b a)) : P (l.foldl f b) := by
  induction l generalizing b with
  | nil => exact hb
  | cons x xs ih =>
    exact ih (f b x) (hf b x (by simp) hb)
      (fun b a ha hb => hf b a (by simp [ha]) hb)

theorem foldl_forall_mem {α β : Type} (f : β → α → β) (l : List α) (b : β)
    (Q : α → β → Prop)
    (hstep : ∀ acc a, a ∈ l → Q a (f acc a))
    (hkeep : ∀ acc a a', a ∈ l → a' ∈ l → Q a acc → Q a (f acc a')) :
    ∀ a ∈ l, Q a (l.foldl f b) := by
  induction l generalizing b with
  | nil => intro a ha; simp at ha
  | cons x xs ih =>
    intro a ha
    rcases List.mem_cons.mp ha with rfl | ha2
    · exact foldl_invariant (Q a) f xs (f b a)
        (hstep b a (by simp))
        (fun acc a' ha' hq => hkeep acc a a' (by simp) (by simp [ha']) hq)
    · exact ih (f b x)
        (fun acc a2 ha2 => hstep acc a2 (by simp [ha2]))
        (fun acc a2 a' h2 h' hq => hkeep acc a2 a' (by simp [h2]) (by simp [h']) hq)
        a ha2

theorem getRoughDistance_cacheFree (cfg : Config) (dd : Hash → Hash → ℚ)
    (st : Stats) (cache : Cache) (a r : Hash)
    (hen : st.distanceCacheEnabled = false) :
    getRoughDistance cfg dd st cache a r = (dd a r, st, cache) := by
  unfold getRoughDistance
  rw [hen]
  simp

theorem micpStep_cacheFree (cfg : Config) (dd : Hash → Hash → ℚ)
    (idOf : Int → Nat) (parents : List Nat) (t1tbl : HashTable) (a : Hash)
    (m : MICP) (st : Stats) (cache : Cache) (r : Hash)
    (hen : st.distanceCacheEnabled = false) :
    micpStep cfg dd idOf parents t1tbl a (m, st, cache) r
      = (micpPureStep cfg.cutoffDistanceForPairs dd idOf parents t1tbl a m r,
         st, cache) := by
  unfold micpStep micpPureStep
  cases htg : tableGet t1tbl r with
  | none => rfl
  | some o =>
    dsimp only
    split_ifs with h1 h2 h3 <;>
      simp_all [getRoughDistance_cacheFree cfg dd st cache a r hen]

theorem buildMICP_cacheFree (cfg : Config) (dd : Hash → Hash → ℚ)
    (idOf : Int → Nat) (parents : List Nat) (A R : List Hash)
    (t1tbl : HashTable) (st : Stats) (cache : Cache)
    (hen : st.distanceCacheEnabled = false) :
    buildMICP cfg dd idOf parents A R t1tbl st cache
      = (buildMICPPure cfg.cutoffDistanceForPairs dd idOf parents A R t1tbl,
         st, cache) := by
  unfold buildMICP buildMICPPure
  have inner : ∀ (a : Hash) (m : MICP),
      R.foldl (micpStep cfg dd idOf parents t1tbl a) (m, st, cache)
        = (R.foldl (micpPureStep cfg.cutoffDistanceForPairs dd idOf parents t1tbl a) m,
           st, cache) := by
    intro a
    induction R with
    | nil => intro m; rfl
    | cons r rest ih =>
      intro m
      simp only [List.foldl_cons]
      rw [micpStep_cacheFree cfg dd idOf parents t1tbl a m st cache r hen]
      exact ih _
  have outer : ∀ (A2 : List Hash) (m : MICP),
      A2.foldl (fun acc a => R.foldl (micpStep cfg dd idOf parents t1tbl a) acc) (m, st, cache)
        = (A2.foldl
            (fun m a => R.foldl (micpPureStep cfg.cutoffDistanceForPairs dd idOf parents t1tbl a) m)
            m, st, cache) := by
    intro A2
    induction A2 with
    | nil => intro m; rfl
    | cons a rest ih =>
      intro m
      simp only [List.foldl_cons]
      rw [inner a m]
      exact ih _
  exact outer A []

theorem mem_distMapGet_distMapAdd (dm : DistMap) (d e : ℚ) (h x : Hash)
    (hx : x ∈ distMapGet (distMapAdd dm d h) e) :
    x ∈ distMapGet dm e ∨ (e = d ∧ x = h) := by
  unfold distMapAdd at hx
  unfold distMapGet at *
  by_cases hed : e = d
  · subst hed
    rw [lookupAssoc_updateOrAppend_self] at hx
    simp only [Option.getD_some] at hx
    by_cases hh : h ∈ (lookupAssoc dm e).getD []
    · rw [if_pos hh] at hx
      exact Or.inl hx
    · rw [if_neg hh] at hx
      rcases List.mem_append.mp hx with h1 | h1
      · exact Or.inl h1
      · simp only [List.mem_singleton] at h1
        exact Or.inr ⟨rfl, h1⟩
  · rw [lookupAssoc_updateOrAppend_other _ _ _ _ _ hed] at hx
    exact Or.inl hx

theorem mem_micpGet_micpAdd (m : MICP) (a a' : Hash) (d e : ℚ) (r x : Hash)
    (hx : x ∈ distMapGet (micpGet (micpAdd m a d r) a') e) :
    x ∈ distMapGet (micpGet m a') e ∨ (a' = a ∧ e = d ∧ x = r) := by
  unfold micpAdd at hx
  unfold micpGet at *
  by_cases haa : a' = a
  · subst haa
    rw [lookupAssoc_updateOrAppend_self] at hx
    simp only [Option.getD_some] at hx
    rcases mem_distMapGet_distMapAdd _ _ _ _ _ hx with h1 | h1
    · exact Or.inl h1
    · exact Or.inr ⟨rfl, h1⟩
  · rw [lookupAssoc_updateOrAppend_other _ _ _ _ _ haa] at hx
    exact Or.inl hx

theorem buildMICPPure_spec (cutoff : ℚ) (dd : Hash → Hash → ℚ)
    (idOf : Int → Nat) (parents : List Nat) (A R : List Hash)
    (tbl : HashTable) :
    ∀ a e r, r ∈ distMapGet (micpGet (buildMICPPure cutoff dd idOf parents A R tbl) a) e →
      a ∈ A ∧ r ∈ R ∧ dd a r = e ∧ e < cutoff := by
  unfold buildMICPPure
  refine foldl_invariant
    (fun m => ∀ a e r, r ∈ distMapGet (micpGet m a) e →
      a ∈ A ∧ r ∈ R ∧ dd a r = e ∧ e < cutoff) _ A [] ?_ ?_
  · intro a e r hr
    simp [micpGet, distMapGet, lookupAssoc_nil] at hr
  · intro m a0 ha0 hm
    refine foldl_invariant
      (fun m => ∀ a e r, r ∈ distMapGet (micpGet m a) e →
        a ∈ A ∧ r ∈ R ∧ dd a r = e ∧ e < cutoff) _ R m hm ?_
    intro m2 r0 hr0 hm2 a e r hr
    unfold micpPureStep at hr
    cases htg : tableGet tbl r0 with
    | none =>
      rw [htg] at hr
      exact hm2 a e r hr
    | some o =>
      rw [htg] at hr
      dsimp only at hr
      split_ifs at hr with h1 h2
      · exact hm2 a e r hr
      · exact hm2 a e r hr
      · rcases mem_micpGet_micpAdd _ _ _ _ _ _ _ hr with hin | ⟨rfl, rfl, rfl⟩
        · exact hm2 a e r hin
        · exact ⟨ha0, hr0, rfl, lt_of_not_ge h2⟩

theorem pairsGet_assocSet_self (p : Pairs) (k v : Hash) :
    pairsGet (assocSet p k v) k = some v := by
  unfold pairsGet assocSet
  rw [lookupAssoc_updateOrAppend_self]

theorem pairsGet_assocSet_other (p : Pairs) (k v k' : Hash) (hk : ¬ k' = k) :
    pairsGet (assocSet p k v) k' = pairsGet p k' := by
  unfold pairsGet assocSet
  exact lookupAssoc_updateOrAppend_other _ _ _ _ _ hk

theorem greedyInner_inv (C : Hash → Hash → Prop) (f : Hash) :
    ∀ (toHashes : List Hash) (used : List Hash) (p : Pairs),
      (∀ t ∈ toHashes, C f t) → PairsInv C used p →
      PairsInv C (greedyInner f toHashes (used, p)).1
        (greedyInner f toHashes (used, p)).2 := by
  intro toHashes
  induction toHashes with
  | nil => intro used p _ hInv; exact hInv
  | cons t rest ih =>
    intro used p hC hInv
    by_cases ht : t ∈ used
    · have heq : greedyInner f (t :: rest) (used, p) = greedyInner f rest (used, p) := by
        unfold greedyInner
        simp [List.foldl_cons, ht]
      rw [heq]
      exact ih used p (fun t' h' => hC t' (by simp [h'])) hInv
    · have heq : greedyInner f (t :: rest) (used, p)
          = greedyInner f rest (f :: t :: used, assocSet p f t) := by
        unfold greedyInner
        simp [List.foldl_cons, ht]
      rw [heq]
      have hInvStep : PairsInv C (f :: t :: used) (assocSet p f t) := by
        obtain ⟨hnd, hlk⟩ := hInv
        refine ⟨updateOrAppend_keys_nodup _ _ _ _ hnd, ?_⟩
        intro k v hkv
        by_cases hkf : k = f
        · subst hkf
          rw [pairsGet_assocSet_self] at hkv
          obtain rfl : t = v := by simpa using hkv
          refine ⟨by simp, by simp, hC t (by simp), ?_⟩
          intro k' hk' hk'v
          rw [pairsGet_assocSet_other _ _ _ _ hk'] at hk'v
          exact ht (hlk k' t hk'v).2.1
        · rw [pairsGet_assocSet_other _ _ _ _ hkf] at hkv
          obtain ⟨hk1, hv1, hc1, hinj⟩ := hlk k v hkv
          refine ⟨by simp [hk1], by simp [hv1], hc1, ?_⟩
          intro k' hk' hk'v
          by_cases hk'f : k' = f
          · subst hk'f
            rw [pairsGet_assocSet_self] at hk'v
            obtain rfl : t = v := by simpa using hk'v
            exact ht hv1
          · rw [pairsGet_assocSet_other _ _ _ _ hk'f] at hk'v
            exact hinj k' hk' hk'v
      have hC' : ∀ t' ∈ rest, C f t' := fun t' h' => hC t' (by simp [h'])
      have hmono : PairsInv C (f :: t :: used) (assocSet p f t) → _ :=
        ih (f :: t :: used) (assocSet p f t) hC'
      exact hmono hInvStep

theorem greedyState_inv (m : MICP) (dtf : DistMap) (dists : List ℚ)
    (C : Hash → Hash → Prop)
    (hC : ∀ f d t, t ∈ distMapGet (micpGet m f) d → C f t) :
    PairsInv C (greedyState m dtf dists).1 (greedyState m dtf dists).2 := by
  unfold greedyState
  refine foldl_invariant (fun acc => PairsInv C acc.1 acc.2) _ dists ([], []) ?_ ?_
  · refine ⟨by simp, ?_⟩
    intro k v hkv
    simp [pairsGet, lookupAssoc_nil] at hkv
  · intro acc d _ hInv
    refine foldl_invariant (fun acc => PairsInv C acc.1 acc.2) _ (distMapGet dtf d) acc hInv ?_
    intro acc2 f _ hInv2
    by_cases hf : f ∈ acc2.1
    · simpa [hf] using hInv2
    · simp only [hf, if_false]
      have := greedyInner_inv C f (distMapGet (micpGet m f) d) acc2.1 acc2.2
        (fun t ht => hC f d t ht) (by simpa using hInv2)
      simpa using this

theorem greedyPairs_inv (m : MICP) (dtf : DistMap) (dists : List ℚ)
    (C : Hash → Hash → Prop)
    (hC : ∀ f d t, t ∈ distMapGet (micpGet m f) d → C f t) :
    ∃ used, PairsInv C used (greedyPairs m dtf dists) :=
  ⟨(greedyState m dtf dists).1, greedyState_inv m dtf dists C hC⟩

theorem insertSortedQ_eq (x : ℚ) (l : List ℚ) :
    insertSortedQ x l = List.orderedInsert (fun a b => a ≤ b) x l := by
  induction l with
  | nil => rfl
  | cons y ys ih => simp [insertSortedQ, List.orderedInsert, ih]

theorem sortQ_eq (l : List ℚ) :
    sortQ l = List.insertionSort (fun a b => a ≤ b) l := by
  unfold sortQ
  induction l with
  | nil => rfl
  | cons y ys ih => simp [List.insertionSort, List.foldr_cons, ih, insertSortedQ_eq]

theorem sortQ_sorted (l : List ℚ) : (sortQ l).Sorted (fun a b => a ≤ b) := by
  rw [sortQ_eq]
  exact List.sorted_insertionSort _ l

theorem sortQ_perm (l : List ℚ) : (sortQ l).Perm l := by
  rw [sortQ_eq]
  exact List.perm_insertionSort _ l

theorem symmetrizePairs_lookup_or (p : Pairs) (x y : Hash)
    (h : pairsGet (symmetrizePairs p) x = some y) :
    pairsGet p x = some y ∨ (y, x) ∈ p := by
  unfold symmetrizePairs at h
  revert h
  refine foldl_invariant
    (fun acc => pairsGet acc x = some y → pairsGet p x = some y ∨ (y, x) ∈ p)
    _ p p (fun h => Or.inl h) ?_
  intro acc e he _hP h
  by_cases hx : x = e.2
  · subst hx
    rw [pairsGet_assocSet_self] at h
    obtain rfl : e.1 = y := by simpa using h
    right
    simpa using he
  · rw [pairsGet_assocSet_other _ _ _ _ hx] at h
    exact _hP h

theorem symmetrizePairs_of_lookup (p : Pairs)
    (_hnd : (List.map Prod.fst p).Nodup)
    (hinj : ∀ e ∈ p, ∀ e' ∈ p, e.2 = e'.2 → e.1 = e'.1)
    (hdisj : ∀ e ∈ p, ∀ e' ∈ p, ¬ e.2 = e'.1)
    (f t : Hash) (hft : pairsGet p f = some t) :
    pairsGet (symmetrizePairs p) f = some t ∧
      pairsGet (symmetrizePairs p) t = some f := by
  have hmemft : (f, t) ∈ p := lookupAssoc_mem p f t hft
  constructor
  · unfold symmetrizePairs
    refine foldl_invariant (fun acc => pairsGet acc f = some t) _ p p hft ?_
    intro acc e he hP
    have hne : ¬ f = e.2 := fun hf => hdisj e he (f, t) hmemft hf.symm
    rw [pairsGet_assocSet_other _ _ _ _ hne]
    exact hP
  · unfold symmetrizePairs
    have hstep : ∀ (acc : Pairs) (e : Hash × Hash), e ∈ p →
        pairsGet (assocSet acc e.2 e.1) e.2 = some e.1 :=
      fun acc e _ => pairsGet_assocSet_self acc e.2 e.1
    have hkeep : ∀ (acc : Pairs) (e e' : Hash × Hash), e ∈ p → e' ∈ p →
        pairsGet acc e.2 = some e.1 →
        pairsGet (assocSet acc e'.2 e'.1) e.2 = some e.1 := by
      intro acc e e' he he' hq
      by_cases h22 : e.2 = e'.2
      · rw [h22, pairsGet_assocSet_self]
        exact congrArg some (hinj e he e' he' h22).symm
      · rw [pairsGet_assocSet_other _ _ _ _ h22]
        exact hq
    have hmain := foldl_forall_mem (fun acc (e : Hash × Hash) => assocSet acc e.2 e.1)
      p p (fun e acc => pairsGet acc e.2 = some e.1) hstep hkeep (f, t) hmemft
    simpa using hmain

theorem symmetrizePairs_sym (p : Pairs)
    (hnd : (List.map Prod.fst p).Nodup)
    (hinj : ∀ e ∈ p, ∀ e' ∈ p, e.2 = e'.2 → e.1 = e'.1)
    (hdisj : ∀ e ∈ p, ∀ e' ∈ p, ¬ e.2 = e'.1)
    (x y : Hash) (h : pairsGet (symmetrizePairs p) x = some y) :
    pairsGet (symmetrizePairs p) y = some x := by
  rcases symmetrizePairs_lookup_or p x y h with h1 | h1
  · exact (symmetrizePairs_of_lookup p hnd hinj hdisj x y h1).2
  · exact (symmetrizePairs_of_lookup p hnd hinj hdisj y x
      (lookupAssoc_of_mem_nodup p y x hnd h1)).1

theorem symmetrizePairs_one_to_one (p : Pairs)
    (hnd : (List.map Prod.fst p).Nodup)
    (hinj : ∀ e ∈ p, ∀ e' ∈ p, e.2 = e'.2 → e.1 = e'.1)
    (hdisj : ∀ e ∈ p, ∀ e' ∈ p, ¬ e.2 = e'.1)
    (x x' y : Hash)
    (h : pairsGet (symmetrizePairs p) x = some y)
    (h' : pairsGet (symmetrizePairs p) x' = some y) : x = x' := by
  rcases symmetrizePairs_lookup_or p x y h with h1 | h1 <;>
    rcases symmetrizePairs_lookup_or p x' y h' with h2 | h2
  · exact hinj (x, y) (lookupAssoc_mem p x y h1) (x', y) (lookupAssoc_mem p x' y h2) rfl
  · exact absurd rfl (hdisj (x, y) (lookupAssoc_mem p x y h1) (y, x') h2)
  · exact absurd rfl (hdisj (x', y) (lookupAssoc_mem p x' y h2) (y, x) h1)
  · have e1 := lookupAssoc_of_mem_nodup p y x hnd h1
    have e2 := lookupAssoc_of_mem_nodup p y x' hnd h2
    rw [e1] at e2
    exact Option.some.inj e2

theorem getMostInCommonPairs_cacheFree (cfg : Config) (dd : Hash → Hash → ℚ)
    (idOf : Int → Nat) (A R : List Hash) (tbl : HashTable)
    (parents : List Nat) (st : Stats) (cache : Cache)
    (hen : st.distanceCacheEnabled = false) :
    getMostInCommonPairs cfg dd idOf A R tbl parents st cache
      = (getMostInCommonPairsPure cfg.cutoffDistanceForPairs dd idOf parents A R tbl,
         st, cache) := by
  unfold getMostInCommonPairs getMostInCommonPairsPure
  dsimp only
  rw [if_neg (by simp [hen])]
  rw [buildMICP_cacheFree cfg dd idOf parents A R tbl st cache hen]
  dsimp only
  rw [if_neg (by simp [hen])]

theorem getMostInCommonPairsPure_mem (cutoff : ℚ) (dd : Hash → Hash → ℚ)
    (idOf : Int → Nat) (parents : List Nat) (A R : List Hash)
    (tbl : HashTable) (x y : Hash)
    (hxy : pairsGet (getMostInCommonPairsPure cutoff dd idOf parents A R tbl) x
      = some y) :
    (x ∈ A ∧ y ∈ R ∧ dd x y < cutoff) ∨ (y ∈ A ∧ x ∈ R ∧ dd y x < cutoff) := by
  unfold getMostInCommonPairsPure at hxy
  dsimp only at hxy
  have hC : ∀ f d t,
      t ∈ distMapGet (micpGet (buildMICPPure cutoff dd idOf parents A R tbl) f) d →
      f ∈ A ∧ t ∈ R ∧ dd f t < cutoff := by
    intro f d t ht
    obtain ⟨hf, htR, hde, hlt⟩ :=
      buildMICPPure_spec cutoff dd idOf parents A R tbl f d t ht
    refine ⟨hf, htR, ?_⟩
    rw [hde]
    exact hlt
  have hinv := greedyState_inv (buildMICPPure cutoff dd idOf parents A R tbl)
    (buildDTF (buildMICPPure cutoff dd idOf parents A R tbl))
    (sortQ (List.map Prod.fst (buildDTF (buildMICPPure cutoff dd idOf parents A R tbl))))
    (fun f t => f ∈ A ∧ t ∈ R ∧ dd f t < cutoff) hC
  obtain ⟨hnd, hlk⟩ := hinv
  rcases symmetrizePairs_lookup_or _ x y hxy with h1 | h1
  · exact Or.inl (hlk x y h1).2.2.1
  · have h2 := lookupAssoc_of_mem_nodup _ y x hnd h1
    exact Or.inr (hlk y x h2).2.2.1

theorem greedyPairs_entry_props (m : MICP) (dtf : DistMap) (dists : List ℚ)
    (A R : List Hash)
    (hC : ∀ f d t, t ∈ distMapGet (micpGet m f) d → f ∈ A ∧ t ∈ R)
    (hAR : ∀ h, h ∈ A → h ∈ R → False) :
    (List.map Prod.fst (greedyPairs m dtf dists)).Nodup ∧
    (∀ e ∈ greedyPairs m dtf dists, ∀ e' ∈ greedyPairs m dtf dists,
       e.2 = e'.2 → e.1 = e'.1) ∧
    (∀ e ∈ greedyPairs m dtf dists, ∀ e' ∈ greedyPairs m dtf dists,
       ¬ e.2 = e'.1) := by
  obtain ⟨hnd, hlk⟩ := greedyState_inv m dtf dists (fun f t => f ∈ A ∧ t ∈ R) hC
  refine ⟨hnd, ?_, ?_⟩
  · intro e he e' he' h22
    have hm1 : (e.1, e.2) ∈ greedyPairs m dtf dists := by simpa using he
    have hm2 : (e'.1, e'.2) ∈ greedyPairs m dtf dists := by simpa using he'
    have l1 : pairsGet (greedyPairs m dtf dists) e.1 = some e.2 :=
      lookupAssoc_of_mem_nodup _ _ _ hnd hm1
    have l2 : pairsGet (greedyPairs m dtf dists) e'.1 = some e'.2 :=
      lookupAssoc_of_mem_nodup _ _ _ hnd hm2
    rw [← h22] at l2
    by_contra hne
    exact (hlk e.1 e.2 l1).2.2.2 e'.1 (fun hh => hne hh.symm) l2
  · intro e he e' he' h21
    have hm1 : (e.1, e.2) ∈ greedyPairs m dtf dists := by simpa using he
    have hm2 : (e'.1, e'.2) ∈ greedyPairs m dtf dists := by simpa using he'
    have l1 : pairsGet (greedyPairs m dtf dists) e.1 = some e.2 :=
      lookupAssoc_of_mem_nodup _ _ _ hnd hm1
    have l2 : pairsGet (greedyPairs m dtf dists) e'.1 = some e'.2 :=
      lookupAssoc_of_mem_nodup _ _ _ hnd hm2
    have hR : e.2 ∈ R := (hlk e.1 e.2 l1).2.2.1.2
    have hA : e'.1 ∈ A := (hlk e'.1 e'.2 l2).2.2.1.1
    exact hAR e'.1 hA (h21 ▸ hR)

/-- C6: in `_get_most_in_common_pairs_in_iterables` (distance cache off),
every pair recorded in the resulting symmetric pairing joins an added and a
removed hash whose rough distance, taken in the added→removed orientation,
is strictly below `cutoff_distance_for_pairs`; candidates at or above the
cutoff are discarded before the matching loops and can never appear in the
pairing. -/
theorem c6_cutoff_discards_pairs (cfg : Config) (dd : Hash → Hash → ℚ)
    (idOf : Int → Nat) (A R : List Hash) (tbl : HashTable)
    (parents : List Nat) (st : Stats) (cache : Cache)
    (hen : st.distanceCacheEnabled = false) (x y : Hash)
    (hxy : pairsGet (getMostInCommonPairs cfg dd idOf A R tbl parents st cache).1 x
      = some y) :
    (x ∈ A ∧ y ∈ R ∧ dd x y < cfg.cutoffDistanceForPairs) ∨
      (y ∈ A ∧ x ∈ R ∧ dd y x < cfg.cutoffDistanceForPairs) := by
  rw [getMostInCommonPairs_cacheFree cfg dd idOf A R tbl parents st cache hen] at hxy
  exact getMostInCommonPairsPure_mem _ dd idOf parents A R tbl x y hxy

/-- Witness for C6 at a concrete run: added hash 10 pairs with removed
hash 30 at distance 1/10, below the cutoff 3/10. -/
theorem c6_cutoff_discards_pairs_witness :
    ((10 : Hash) ∈ [(10 : Hash)] ∧ (30 : Hash) ∈ [(20 : Hash), 30] ∧
        (fun _ _ => mkRat 1 10 : Hash → Hash → ℚ) 10 30
          < ({ defaultConfig with
                cutoffDistanceForPairs := mkRat 3 10 } : Config).cutoffDistanceForPairs) ∨
      ((30 : Hash) ∈ [(10 : Hash)] ∧ (10 : Hash) ∈ [(20 : Hash), 30] ∧
        (fun _ _ => mkRat 1 10 : Hash → Hash → ℚ) 30 10
          < ({ defaultConfig with
                cutoffDistanceForPairs := mkRat 3 10 } : Config).cutoffDistanceForPairs) :=
  c6_cutoff_discards_pairs { defaultConfig with cutoffDistanceForPairs := mkRat 3 10 }
    (fun _ _ => mkRat 1 10) (fun _ => 0) [10] [20, 30]
    [(20, ⟨[0], 20⟩), (30, ⟨[1], 30⟩)] [] (initStats defaultConfig) []
    (by decide) 10 30 (by decide)

/-- C7 (amended): the pairing returned by
`_get_most_in_common_pairs_in_iterables` (distance cache off, added and
removed hash lists disjoint) is symmetric (`pairs[a] = r` iff
`pairs[r] = a`) and one-to-one (no hash is the counterpart of two
different hashes), and the distance tiers are consumed in ascending order
(the tier list is the sorted permutation of the candidate distances).  The
claim's "first-encountered-wins inside each distance tier" is refuted by
`c7_counterexample`: the inner matching loop has no break, so the
last-encountered still-unmatched candidate of a tier wins. -/
theorem c7_pairing_symmetric_one_to_one (cfg : Config) (dd : Hash → Hash → ℚ)
    (idOf : Int → Nat) (A R : List Hash) (tbl : HashTable)
    (parents : List Nat) (st : Stats) (cache : Cache) (M : Pairs)
    (hM : M = (getMostInCommonPairs cfg dd idOf A R tbl parents st cache).1)
    (D : List ℚ)
    (hD : D = List.map Prod.fst
      (buildDTF (buildMICPPure cfg.cutoffDistanceForPairs dd idOf parents A R tbl)))
    (hen : st.distanceCacheEnabled = false)
    (hdisj : ∀ h, h ∈ A → h ∈ R → False) :
    (∀ x y, pairsGet M x = some y → pairsGet M y = some x) ∧
    (∀ x x' y, pairsGet M x = some y → pairsGet M x' = some y → x = x') ∧
    (sortQ D).Sorted (fun a b => a ≤ b) ∧ (sortQ D).Perm D := by
  rw [getMostInCommonPairs_cacheFree cfg dd idOf A R tbl parents st cache hen] at hM
  unfold getMostInCommonPairsPure at hM
  dsimp only at hM
  have hC : ∀ f d t,
      t ∈ distMapGet
        (micpGet (buildMICPPure cfg.cutoffDistanceForPairs dd idOf parents A R tbl) f)
        d →
      f ∈ A ∧ t ∈ R := by
    intro f d t ht
    obtain ⟨hf, htR, _, _⟩ :=
      buildMICPPure_spec cfg.cutoffDistanceForPairs dd idOf parents A R tbl f d t ht
    exact ⟨hf, htR⟩
  obtain ⟨hnd, hinjE, hdisjE⟩ := greedyPairs_entry_props
    (buildMICPPure cfg.cutoffDistanceForPairs dd idOf parents A R tbl)
    (buildDTF (buildMICPPure cfg.cutoffDistanceForPairs dd idOf parents A R tbl))
    (sortQ (List.map Prod.fst
      (buildDTF (buildMICPPure cfg.cutoffDistanceForPairs dd idOf parents A R tbl))))
    A R hC hdisj
  refine ⟨?_, ?_, ?_, ?_⟩
  · intro x y h
    rw [hM] at h ⊢
    exact symmetrizePairs_sym _ hnd hinjE hdisjE x y h
  · intro x x' y h h'
    rw [hM] at h h'
    exact symmetrizePairs_one_to_one _ hnd hinjE hdisjE x x' y h h'
  · rw [hD]
    exact sortQ_sorted _
  · rw [hD]
    exact sortQ_perm _

/-- Witness for C7 at a concrete run: 10 is paired with 30, so by symmetry
30 is paired with 10. -/
theorem c7_pairing_symmetric_one_to_one_witness :
    pairsGet (getMostInCommonPairs
        { defaultConfig with cutoffDistanceForPairs := mkRat 3 10 }
        (fun _ _ => mkRat 1 10) (fun _ => 0) [10] [20, 30]
        [(20, ⟨[0], 20⟩), (30, ⟨[1], 30⟩)] [] (initStats defaultConfig) []).1 30
      = some 10 :=
  (c7_pairing_symmetric_one_to_one
    { defaultConfig with cutoffDistanceForPairs := mkRat 3 10 }
    (fun _ _ => mkRat 1 10) (fun _ => 0) [10] [20, 30]
    [(20, ⟨[0], 20⟩), (30, ⟨[1], 30⟩)] [] (initStats defaultConfig) []
    (getMostInCommonPairs
        { defaultConfig with cutoffDistanceForPairs := mkRat 3 10 }
        (fun _ _ => mkRat 1 10) (fun _ => 0) [10] [20, 30]
        [(20, ⟨[0], 20⟩), (30, ⟨[1], 30⟩)] [] (initStats defaultConfig) []).1
    rfl
    (List.map Prod.fst (buildDTF (buildMICPPure (mkRat 3 10)
      (fun _ _ => mkRat 1 10) (fun _ => 0) [] [10] [20, 30]
      [(20, ⟨[0], 20⟩), (30, ⟨[1], 30⟩)])))
    rfl (by decide) (by decide)).1 10 30 (by decide)

/-- C7 counterexample to "first-encountered-wins inside each distance
tier": with one added hash 10 and two removed candidates 20 and 30 at the
same distance 1/10, the source's inner matching loop (which has no break)
leaves 10 paired with the last candidate 30, whereas the claimed
first-encountered-wins matcher pairs it with 20. -/
theorem c7_counterexample :
    ¬ (getMostInCommonPairs
          { defaultConfig with cutoffDistanceForPairs := mkRat 3 10 }
          (fun _ _ => mkRat 1 10) (fun _ => 0) [10] [20, 30]
          [(20, ⟨[0], 20⟩), (30, ⟨[1], 30⟩)] [] (initStats defaultConfig) []).1
        = getMostInCommonPairsFirstWins (mkRat 3 10) (fun _ _ => mkRat 1 10)
            (fun _ => 0) [] [10] [20, 30]
            [(20, ⟨[0], 20⟩), (30, ⟨[1], 30⟩)] := by
  decide

theorem cacheGetVal_mem (c : Cache) (k : CKey) (v : CVal)
    (h : cacheGetVal c k = some v) : ∃ e ∈ c, e.key = k ∧ e.val = v := by
  unfold cacheGetVal at h
  cases hf : c.find? (fun e => e.key = k) with
  | none => rw [hf] at h; simp at h
  | some e =>
    rw [hf] at h
    simp at h
    have hkey := List.find?_some hf
    refine ⟨e, List.mem_of_find?_eq_some hf, by simpa using hkey, by simpa using h⟩

theorem distEntriesOk_bump (dd : Hash → Hash → ℚ) (c : Cache) (k : CKey)
    (hok : DistEntriesOk dd c) : DistEntriesOk dd (cacheBump c k) := by
  intro e he k1 k2 hk
  unfold cacheBump at he
  obtain ⟨e0, he0, heq⟩ := List.mem_map.mp he
  have hkv : e.key = e0.key ∧ e.val = e0.val := by
    by_cases h0 : e0.key = k
    · rw [if_pos h0] at heq
      constructor <;> rw [← heq]
    · rw [if_neg h0] at heq
      constructor <;> rw [← heq]
  rw [hkv.2]
  exact hok e0 he0 k1 k2 (by rw [← hkv.1]; exact hk)

theorem distEntriesOk_evict (dd : Hash → Hash → ℚ) (c : Cache)
    (hok : DistEntriesOk dd c) : DistEntriesOk dd (cacheEvictOne c) := by
  intro e he k1 k2 hk
  exact hok e ((List.eraseP_sublist c).subset he) k1 k2 hk

theorem distEntriesOk_set (dd : Hash → Hash → ℚ) (c : Cache) (cap : Nat)
    (a r : Hash) (hsym : ∀ x y, dd x y = dd y x)
    (hok : DistEntriesOk dd c) :
    DistEntriesOk dd (cacheSet cap c (distCacheKey a r) (.dist (dd a r))) := by
  have hnew : ∀ k1 k2, distCacheKey a r = CKey.distKey k1 k2 →
      CVal.dist (dd a r) = CVal.dist (dd k1 k2) := by
    intro k1 k2 hk
    unfold distCacheKey at hk
    split_ifs at hk with hgt
    · injection hk with h1 h2
      rw [h1, h2]
    · injection hk with h1 h2
      rw [← h1, ← h2]
      exact congrArg CVal.dist (hsym a r)
  intro e he k1 k2 hk
  unfold cacheSet at he
  split_ifs at he with h1 h2
  · obtain ⟨e0, he0, heq⟩ := List.mem_map.mp he
    by_cases h0 : e0.key = distCacheKey a r
    · rw [if_pos h0] at heq
      have hkey : e.key = e0.key := by rw [← heq]
      have hval : e.val = CVal.dist (dd a r) := by rw [← heq]
      rw [hval]
      exact hnew k1 k2 (by rw [← h0, ← hkey]; exact hk)
    · rw [if_neg h0] at heq
      rw [← heq] at hk ⊢
      exact hok e0 he0 k1 k2 hk
  · rcases List.mem_append.mp he with h | h
    · exact hok e h k1 k2 hk
    · simp only [List.mem_singleton] at h
      subst h
      exact hnew k1 k2 hk
  · rcases List.mem_append.mp he with h | h
    · exact distEntriesOk_evict dd c hok e h k1 k2 hk
    · simp only [List.mem_singleton] at h
      subst h
      exact hnew k1 k2 hk

theorem getRoughDistance_spec (cfg : Config) (dd : Hash → Hash → ℚ)
    (st : Stats) (cache : Cache) (a r : Hash)
    (hsym : ∀ x y, dd x y = dd y x) (hok : DistEntriesOk dd cache) :
    (getRoughDistance cfg dd st cache a r).1 = dd a r ∧
    (getRoughDistance cfg dd st cache a r).2.1.core = st.core ∧
    DistEntriesOk dd (getRoughDistance cfg dd st cache a r).2.2 := by
  by_cases hen : st.distanceCacheEnabled
  · by_cases hcc : cacheContains cache (distCacheKey a r)
    · cases hv : cacheGetVal cache (distCacheKey a r) with
      | none =>
        have heq : getRoughDistance cfg dd st cache a r
            = (dd a r,
               { st with distanceCacheHitCount := st.distanceCacheHitCount + 1 },
               cacheSet cfg.cacheSize (cacheBump cache (distCacheKey a r))
                 (distCacheKey a r) (.dist (dd a r))) := by
          unfold getRoughDistance
          rw [if_pos hen]
          dsimp only
          rw [if_pos hcc]
          simp only [hv]
        rw [heq]
        exact ⟨rfl, rfl,
          distEntriesOk_set dd (cacheBump cache (distCacheKey a r)) cfg.cacheSize a r
            hsym (distEntriesOk_bump dd cache (distCacheKey a r) hok)⟩
      | some v =>
        cases v with
        | dist d =>
          have heq : getRoughDistance cfg dd st cache a r
              = (d,
                 { st with distanceCacheHitCount := st.distanceCacheHitCount + 1 },
                 cacheBump cache (distCacheKey a r)) := by
            unfold getRoughDistance
            rw [if_pos hen]
            dsimp only
            rw [if_pos hcc]
            simp only [hv]
          obtain ⟨e, he, hek, hev⟩ := cacheGetVal_mem cache _ _ hv
          have hd : d = dd a r := by
            unfold distCacheKey at hek
            split_ifs at hek with hgt
            · have h2 := hok e he a r hek
              rw [hev] at h2
              injection h2
            · have h2 := hok e he r a hek
              rw [hev] at h2
              injection h2 with h3
              rw [h3]
              exact hsym r a
          rw [heq]
          exact ⟨hd, rfl, distEntriesOk_bump dd cache (distCacheKey a r) hok⟩
        | pairs p =>
          have heq : getRoughDistance cfg dd st cache a r
              = (dd a r,
                 { st with distanceCacheHitCount := st.distanceCacheHitCount + 1 },
                 cacheSet cfg.cacheSize (cacheBump cache (distCacheKey a r))
                   (distCacheKey a r) (.dist (dd a r))) := by
            unfold getRoughDistance
            rw [if_pos hen]
            dsimp only
            rw [if_pos hcc]
            simp only [hv]
          rw [heq]
          exact ⟨rfl, rfl,
            distEntriesOk_set dd (cacheBump cache (distCacheKey a r)) cfg.cacheSize a r
              hsym (distEntriesOk_bump dd cache (distCacheKey a r) hok)⟩
    · have heq : getRoughDistance cfg dd st cache a r
          = (dd a r, st,
             cacheSet cfg.cacheSize cache (distCacheKey a r) (.dist (dd a r))) := by
        unfold getRoughDistance
        rw [if_pos hen]
        dsimp only
        rw [if_neg hcc]
      rw [heq]
      exact ⟨rfl, rfl, distEntriesOk_set dd cache cfg.cacheSize a r hsym hok⟩
  · have heq : getRoughDistance cfg dd st cache a r = (dd a r, st, cache) := by
      unfold getRoughDistance
      rw [if_neg hen]
    rw [heq]
    exact ⟨rfl, rfl, hok⟩

theorem micpStep_spec (cfg : Config) (dd : Hash → Hash → ℚ)
    (idOf : Int → Nat) (parents : List Nat) (t1tbl : HashTable) (a : Hash)
    (m : MICP) (st : Stats) (cache : Cache) (r : Hash)
    (hsym : ∀ x y, dd x y = dd y x) (hok : DistEntriesOk dd cache) :
    (micpStep cfg dd idOf parents t1tbl a (m, st, cache) r).1
        = micpPureStep cfg.cutoffDistanceForPairs dd idOf parents t1tbl a m r ∧
    (micpStep cfg dd idOf parents t1tbl a (m, st, cache) r).2.1.core = st.core ∧
    DistEntriesOk dd (micpStep cfg dd idOf parents t1tbl a (m, st, cache) r).2.2 := by
  obtain ⟨hq1, hq2, hq3⟩ := getRoughDistance_spec cfg dd st cache a r hsym hok
  unfold micpStep micpPureStep
  cases htg : tableGet t1tbl r with
  | none => exact ⟨rfl, rfl, hok⟩
  | some o =>
    dsimp only
    by_cases hid : idOf o.item ∈ parents
    · rw [if_pos hid, if_pos hid]
      exact ⟨rfl, rfl, hok⟩
    · rw [if_neg hid, if_neg hid]
      by_cases hge : (getRoughDistance cfg dd st cache a r).1 ≥ cfg.cutoffDistanceForPairs
      · rw [if_pos hge, if_pos (by rw [← hq1]; exact hge)]
        exact ⟨rfl, hq2, hq3⟩
      · rw [if_neg hge, if_neg (by rw [← hq1]; exact hge)]
        refine ⟨?_, hq2, hq3⟩
        rw [hq1]

theorem buildMICP_spec (cfg : Config) (dd : Hash → Hash → ℚ)
    (idOf : Int → Nat) (parents : List Nat) (A R : List Hash)
    (t1tbl : HashTable) (st : Stats) (cache : Cache)
    (hsym : ∀ x y, dd x y = dd y x) (hok : DistEntriesOk dd cache) :
    (buildMICP cfg dd idOf parents A R t1tbl st cache).1
        = buildMICPPure cfg.cutoffDistanceForPairs dd idOf parents A R t1tbl ∧
    (buildMICP cfg dd idOf parents A R t1tbl st cache).2.1.core = st.core ∧
    DistEntriesOk dd (buildMICP cfg dd idOf parents A R t1tbl st cache).2.2 := by
  unfold buildMICP buildMICPPure
  have inner : ∀ (l : List Hash) (a : Hash) (acc : MICP × Stats × Cache),
      acc.2.1.core = st.core → DistEntriesOk dd acc.2.2 →
      (l.foldl (micpStep cfg dd idOf parents t1tbl a) acc).1
          = l.foldl (micpPureStep cfg.cutoffDistanceForPairs dd idOf parents t1tbl a)
              acc.1
        ∧ (l.foldl (micpStep cfg dd idOf parents t1tbl a) acc).2.1.core = st.core
        ∧ DistEntriesOk dd
            (l.foldl (micpStep cfg dd idOf parents t1tbl a) acc).2.2 := by
    intro l a
    induction l with
    | nil => intro acc h1 h2; exact ⟨rfl, h1, h2⟩
    | cons r rest ih =>
      intro acc h1 h2
      simp only [List.foldl_cons]
      obtain ⟨m0, st0, c0⟩ := acc
      have e := micpStep_spec cfg dd idOf parents t1tbl a m0 st0 c0 r hsym h2
      have ih2 := ih (micpStep cfg dd idOf parents t1tbl a (m0, st0, c0) r)
        (e.2.1.trans h1) e.2.2
      refine ⟨?_, ih2.2.1, ih2.2.2⟩
      rw [ih2.1, e.1]
  have outer : ∀ (l : List Hash) (acc : MICP × Stats × Cache),
      acc.2.1.core = st.core → DistEntriesOk dd acc.2.2 →
      (l.foldl (fun acc a => R.foldl (micpStep cfg dd idOf parents t1tbl a) acc)
          acc).1
          = l.foldl
              (fun m a =>
                R.foldl (micpPureStep cfg.cutoffDistanceForPairs dd idOf parents t1tbl a) m)
              acc.1
        ∧ (l.foldl (fun acc a => R.foldl (micpStep cfg dd idOf parents t1tbl a) acc)
            acc).2.1.core = st.core
        ∧ DistEntriesOk dd
            (l.foldl (fun acc a => R.foldl (micpStep cfg dd idOf parents t1tbl a) acc)
              acc).2.2 := by
    intro l
    induction l with
    | nil => intro acc h1 h2; exact ⟨rfl, h1, h2⟩
    | cons a rest ih =>
      intro acc h1 h2
      simp only [List.foldl_cons]
      have e := inner R a acc h1 h2
      have ih2 := ih (R.foldl (micpStep cfg dd idOf parents t1tbl a) acc) e.2.1 e.2.2
      refine ⟨?_, ih2.2.1, ih2.2.2⟩
      rw [ih2.1, e.1]
  exact outer A ([], st, cache) rfl hok

theorem getMostInCommonPairs_spec (cfg : Config) (dd : Hash → Hash → ℚ)
    (idOf : Int → Nat) (A R : List Hash) (tbl : HashTable)
    (parents : List Nat) (st : Stats) (cache : Cache)
    (hsym : ∀ x y, dd x y = dd y x) (hok : DistEntriesOk dd cache)
    (hmiss : cacheContains cache (CKey.pairsKey A R) = false) :
    (getMostInCommonPairs cfg dd idOf A R tbl parents st cache).1
        = getMostInCommonPairsPure cfg.cutoffDistanceForPairs dd idOf parents A R tbl ∧
    (getMostInCommonPairs cfg dd idOf A R tbl parents st cache).2.1.core = st.core := by
  unfold getMostInCommonPairs getMostInCommonPairsPure
  dsimp only
  rw [if_neg (by simp [hmiss])]
  dsimp only
  obtain ⟨e1, e2, _e3⟩ := buildMICP_spec cfg dd idOf parents A R tbl st cache hsym hok
  constructor
  · rw [e1]
  · exact e2

theorem pairsPhase_spec (cfg1 cfg2 : Config) (dd : Hash → Hash → ℚ)
    (hashF : Int → Hash) (idOf : Int → Nat) (t1 t2 : List Int)
    (t1tbl : HashTable) (parents : List Nat) (st1 st2 : Stats)
    (hmp : cfg1.maxPasses = cfg2.maxPasses)
    (hci : cfg1.cutoffIntersectionForPairs = cfg2.cutoffIntersectionForPairs)
    (hcd : cfg1.cutoffDistanceForPairs = cfg2.cutoffDistanceForPairs)
    (hsym : ∀ x y, dd x y = dd y x) (hc : st1.core = st2.core) :
    (pairsPhase cfg1 dd hashF idOf t1 t2 t1tbl parents st1 []).1
      = (pairsPhase cfg2 dd hashF idOf t1 t2 t1tbl parents st2 []).1 ∧
    (pairsPhase cfg1 dd hashF idOf t1 t2 t1tbl parents st1 []).2.1.core
      = (pairsPhase cfg2 dd hashF idOf t1 t2 t1tbl parents st2 []).2.1.core := by
  have h1 : st1.passesCount = st2.passesCount := congrArg StatsCore.passesCount hc
  have h2 : st1.diffCount = st2.diffCount := congrArg StatsCore.diffCount hc
  have h3 : st1.maxPassLimitReached = st2.maxPassLimitReached :=
    congrArg StatsCore.maxPassLimitReached hc
  have h4 : st1.maxDiffLimitReached = st2.maxDiffLimitReached :=
    congrArg StatsCore.maxDiffLimitReached hc
  have h5 : st1.warningCount = st2.warningCount := congrArg StatsCore.warningCount hc
  have hskip : pairingSkipped cfg1 hashF t1 t2 = pairingSkipped cfg2 hashF t1 t2 := by
    unfold pairingSkipped
    rw [hci]
  have hokNil : DistEntriesOk dd ([] : Cache) := by
    intro e he k1 k2 hk
    simp at he
  unfold pairsPhase
  dsimp only
  by_cases hcond : st1.passesCount < cfg1.maxPasses ∧ ¬ pairingSkipped cfg1 hashF t1 t2
  · have hcond2 : st2.passesCount < cfg2.maxPasses ∧ ¬ pairingSkipped cfg2 hashF t1 t2 := by
      rw [← h1, ← hmp, ← hskip]
      exact hcond
    rw [if_pos hcond, if_pos hcond2]
    obtain ⟨g1a, g1b⟩ := getMostInCommonPairs_spec cfg1 dd idOf
      (hashesAddedOf hashF t1 t2) (hashesRemovedOf hashF t1 t2) t1tbl parents
      { st1 with passesCount := st1.passesCount + 1 } [] hsym hokNil rfl
    obtain ⟨g2a, g2b⟩ := getMostInCommonPairs_spec cfg2 dd idOf
      (hashesAddedOf hashF t1 t2) (hashesRemovedOf hashF t1 t2) t1tbl parents
      { st2 with passesCount := st2.passesCount + 1 } [] hsym hokNil rfl
    constructor
    · rw [g1a, g2a, hcd]
    · rw [g1b, g2b]
      simp [Stats.core, h1, h2, h3, h4, h5]
  · have hcond2 : ¬ (st2.passesCount < cfg2.maxPasses ∧ ¬ pairingSkipped cfg2 hashF t1 t2) := by
      rw [← h1, ← hmp, ← hskip]
      exact hcond
    rw [if_neg hcond, if_neg hcond2]
    by_cases hg : ¬ pairingSkipped cfg1 hashF t1 t2
    · have hg2 : ¬ pairingSkipped cfg2 hashF t1 t2 := by
        rw [← hskip]
        exact hg
      rw [if_pos hg, if_pos hg2]
      refine ⟨rfl, ?_⟩
      by_cases hw : st1.maxPassLimitReached
      · have hw2 : st2.maxPassLimitReached = true := by
          rw [← h3]
          exact hw
        rw [if_neg (by simp [hw]), if_neg (by simp [hw2])]
        exact hc
      · have hw2 : ¬ st2.maxPassLimitReached = true := by
          rw [← h3]
          exact hw
        rw [if_pos hw, if_pos hw2]
        simp [Stats.core, h1, h2, h3, h4, h5]
    · have hg2 : ¬ ¬ pairingSkipped cfg2 hashF t1 t2 := by
        rw [← hskip]
        exact hg
      rw [if_neg hg, if_neg hg2]
      exact ⟨rfl, hc⟩

theorem childDiffAtomU_congr (cfg1 cfg2 : Config) (st1 st2 : Stats)
    (hm : cfg1.maxDiffs = cfg2.maxDiffs) (hc : st1.core = st2.core)
    (i : Nat) (x y : Int) :
    (childDiffAtomU cfg1 i x y st1).1 = (childDiffAtomU cfg2 i x y st2).1 ∧
    (childDiffAtomU cfg1 i x y st1).2.core = (childDiffAtomU cfg2 i x y st2).2.core := by
  obtain ⟨hcore, hstop⟩ := countDiff_core_congr cfg1 cfg2 st1 st2 hm hc
  unfold childDiffAtomU
  dsimp only
  by_cases hb : (countDiff cfg1 st1).2
  · have hb2 : (countDiff cfg2 st2).2 = true := by
      rw [← hstop]
      exact hb
    rw [if_pos hb, if_pos hb2]
    exact ⟨rfl, hcore⟩
  · have hb2 : ¬ (countDiff cfg2 st2).2 = true := by
      rw [← hstop]
      exact hb
    rw [if_neg hb, if_neg hb2]
    by_cases hxy : x = y
    · rw [if_pos hxy, if_pos hxy]
      exact ⟨rfl, hcore⟩
    · rw [if_neg hxy, if_neg hxy]
      exact ⟨rfl, hcore⟩

theorem foldl_rel {α β γ : Type} (R : β → γ → Prop) (f : β → α → β)
    (g : γ → α → γ) (l : List α) (b : β) (c : γ) (hbc : R b c)
    (hstep : ∀ b c a, a ∈ l → R b c → R (f b a) (g c a)) :
    R (l.foldl f b) (l.foldl g c) := by
  induction l generalizing b c with
  | nil => exact hbc
  | cons x xs ih =>
    exact ih (f b x) (g c x) (hstep b c x (by simp) hbc)
      (fun b c a ha h => hstep b c a (by simp [ha]) h)

theorem addedLoopU_congr (cfg1 cfg2 : Config) (t1tbl t2tbl : HashTable)
    (hm : cfg1.maxDiffs = cfg2.maxDiffs) :
    ∀ (hs : List Hash) (pairs : Pairs) (hr : List Hash) (recs : List URec)
      (st1 st2 : Stats), st1.core = st2.core →
      (addedLoopU cfg1 t1tbl t2tbl hs pairs hr recs st1).1
          = (addedLoopU cfg2 t1tbl t2tbl hs pairs hr recs st2).1
      ∧ (addedLoopU cfg1 t1tbl t2tbl hs pairs hr recs st1).2.1.core
          = (addedLoopU cfg2 t1tbl t2tbl hs pairs hr recs st2).2.1.core
      ∧ (addedLoopU cfg1 t1tbl t2tbl hs pairs hr recs st1).2.2
          = (addedLoopU cfg2 t1tbl t2tbl hs pairs hr recs st2).2.2 := by
  intro hs
  induction hs with
  | nil =>
    intro pairs hr recs st1 st2 hc
    exact ⟨rfl, hc, rfl⟩
  | cons h rest ih =>
    intro pairs hr recs st1 st2 hc
    obtain ⟨hcore, hstop⟩ := countDiff_core_congr cfg1 cfg2 st1 st2 hm hc
    simp only [addedLoopU]
    by_cases hb : (countDiff cfg1 st1).2
    · have hb2 : (countDiff cfg2 st2).2 = true := by
        rw [← hstop]
        exact hb
      rw [if_pos hb, if_pos hb2]
      exact ⟨rfl, hcore, rfl⟩
    · have hb2 : ¬ (countDiff cfg2 st2).2 = true := by
        rw [← hstop]
        exact hb
      rw [if_neg hb, if_neg hb2]
      cases hgp : (getOtherPair pairs t1tbl hr h).1 with
      | none =>
        dsimp only
        exact ih _ _ _ _ _ hcore
      | some other =>
        dsimp only
        have hch := childDiffAtomU_congr cfg1 cfg2 (countDiff cfg1 st1).1
          (countDiff cfg2 st2).1 hm hcore (other.indexes.headD 0) other.item
          (((tableGet t2tbl h).map IndexedHash.item).getD 0)
        rw [hch.1]
        exact ih _ _ _ _ _ hch.2

theorem removedLoopU_congr (cfg1 cfg2 : Config) (t1tbl t2tbl : HashTable)
    (hm : cfg1.maxDiffs = cfg2.maxDiffs) :
    ∀ (hs : List Hash) (pairs : Pairs) (ha : List Hash) (recs : List URec)
      (st1 st2 : Stats), st1.core = st2.core →
      (removedLoopU cfg1 t1tbl t2tbl hs pairs ha recs st1).1
          = (removedLoopU cfg2 t1tbl t2tbl hs pairs ha recs st2).1
      ∧ (removedLoopU cfg1 t1tbl t2tbl hs pairs ha recs st1).2.core
          = (removedLoopU cfg2 t1tbl t2tbl hs pairs ha recs st2).2.core := by
  intro hs
  induction hs with
  | nil =>
    intro pairs ha recs st1 st2 hc
    exact ⟨rfl, hc⟩
  | cons h rest ih =>
    intro pairs ha recs st1 st2 hc
    obtain ⟨hcore, hstop⟩ := countDiff_core_congr cfg1 cfg2 st1 st2 hm hc
    simp only [removedLoopU]
    by_cases hb : (countDiff cfg1 st1).2
    · have hb2 : (countDiff cfg2 st2).2 = true := by
        rw [← hstop]
        exact hb
      rw [if_pos hb, if_pos hb2]
      exact ⟨rfl, hcore⟩
    · have hb2 : ¬ (countDiff cfg2 st2).2 = true := by
        rw [← hstop]
        exact hb
      rw [if_neg hb, if_neg hb2]
      cases hgp : (getOtherPair pairs t2tbl ha h).1 with
      | none =>
        dsimp only
        exact ih _ _ _ _ _ hcore
      | some other =>
        dsimp only
        have hch := childDiffAtomU_congr cfg1 cfg2 (countDiff cfg1 st1).1
          (countDiff cfg2 st2).1 hm hcore
          ((((tableGet t1tbl h).map IndexedHash.indexes).getD []).headD 0)
          (((tableGet t1tbl h).map IndexedHash.item).getD 0) other.item
        rw [hch.1]
        exact ih _ _ _ _ _ hch.2

theorem addedLoopRepU_congr (cfg1 cfg2 : Config) (t1tbl t2tbl : HashTable)
    (hm : cfg1.maxDiffs = cfg2.maxDiffs) :
    ∀ (hs : List Hash) (pairs : Pairs) (hr : List Hash) (recs : List URec)
      (st1 st2 : Stats), st1.core = st2.core →
      (addedLoopRepU cfg1 t1tbl t2tbl hs pairs hr recs st1).1
          = (addedLoopRepU cfg2 t1tbl t2tbl hs pairs hr recs st2).1
      ∧ (addedLoopRepU cfg1 t1tbl t2tbl hs pairs hr recs st1).2.1.core
          = (addedLoopRepU cfg2 t1tbl t2tbl hs pairs hr recs st2).2.1.core
      ∧ (addedLoopRepU cfg1 t1tbl t2tbl hs pairs hr recs st1).2.2
          = (addedLoopRepU cfg2 t1tbl t2tbl hs pairs hr recs st2).2.2 := by
  intro hs
  induction hs with
  | nil =>
    intro pairs hr recs st1 st2 hc
    exact ⟨rfl, hc, rfl⟩
  | cons h rest ih =>
    intro pairs hr recs st1 st2 hc
    obtain ⟨hcore, hstop⟩ := countDiff_core_congr cfg1 cfg2 st1 st2 hm hc
    simp only [addedLoopRepU]
    by_cases hb : (countDiff cfg1 st1).2
    · have hb2 : (countDiff cfg2 st2).2 = true := by
        rw [← hstop]
        exact hb
      rw [if_pos hb, if_pos hb2]
      exact ⟨rfl, hcore, rfl⟩
    · have hb2 : ¬ (countDiff cfg2 st2).2 = true := by
        rw [← hstop]
        exact hb
      rw [if_neg hb, if_neg hb2]
      cases hgp : (getOtherPair pairs t1tbl hr h).1 with
      | none =>
        dsimp only
        exact ih _ _ _ _ _ hcore
      | some other =>
        dsimp only
        have hrel := foldl_rel
          (fun (u v : List URec × Stats) => u.1 = v.1 ∧ u.2.core = v.2.core)
          (fun acc i =>
            (acc.1 ++ (childDiffAtomU cfg1 i other.item
                (((tableGet t2tbl h).map IndexedHash.item).getD 0) acc.2).1,
             (childDiffAtomU cfg1 i other.item
                (((tableGet t2tbl h).map IndexedHash.item).getD 0) acc.2).2))
          (fun acc i =>
            (acc.1 ++ (childDiffAtomU cfg2 i other.item
                (((tableGet t2tbl h).map IndexedHash.item).getD 0) acc.2).1,
             (childDiffAtomU cfg2 i other.item
                (((tableGet t2tbl h).map IndexedHash.item).getD 0) acc.2).2))
          other.indexes (recs, (countDiff cfg1 st1).1) (recs, (countDiff cfg2 st2).1)
          ⟨rfl, hcore⟩
          (by
            intro u v i _ hR
            dsimp only
            have hch := childDiffAtomU_congr cfg1 cfg2 u.2 v.2 hm hR.2 i other.item
              (((tableGet t2tbl h).map IndexedHash.item).getD 0)
            exact ⟨by rw [hR.1, hch.1], hch.2⟩)
        rw [hrel.1]
        exact ih _ _ _ _ _ hrel.2

theorem removedLoopRepU_congr (cfg1 cfg2 : Config) (t1tbl t2tbl : HashTable)
    (hm : cfg1.maxDiffs = cfg2.maxDiffs) :
    ∀ (hs : List Hash) (pairs : Pairs) (ha : List Hash) (recs : List URec)
      (st1 st2 : Stats), st1.core = st2.core →
      (removedLoopRepU cfg1 t1tbl t2tbl hs pairs ha recs st1).1
          = (removedLoopRepU cfg2 t1tbl t2tbl hs pairs ha recs st2).1
      ∧ (removedLoopRepU cfg1 t1tbl t2tbl hs pairs ha recs st1).2.core
          = (removedLoopRepU cfg2 t1tbl t2tbl hs pairs ha recs st2).2.core := by
  intro hs
  induction hs with
  | nil =>
    intro pairs ha recs st1 st2 hc
    exact ⟨rfl, hc⟩
  | cons h rest ih =>
    intro pairs ha recs st1 st2 hc
    obtain ⟨hcore, hstop⟩ := countDiff_core_congr cfg1 cfg2 st1 st2 hm hc
    simp only [removedLoopRepU]
    by_cases hb : (countDiff cfg1 st1).2
    · have hb2 : (countDiff cfg2 st2).2 = true := by
        rw [← hstop]
        exact hb
      rw [if_pos hb, if_pos hb2]
      exact ⟨rfl, hcore⟩
    · have hb2 : ¬ (countDiff cfg2 st2).2 = true := by
        rw [← hstop]
        exact hb
      rw [if_neg hb, if_neg hb2]
      cases hgp : (getOtherPair pairs t2tbl ha h).1 with
      | none =>
        dsimp only
        exact ih _ _ _ _ _ hcore
      | some other =>
        dsimp only
        have hrel := foldl_rel
          (fun (u v : List URec × Stats) => u.1 = v.1 ∧ u.2.core = v.2.core)
          (fun acc i =>
            (acc.1 ++ (childDiffAtomU cfg1 i
                (((tableGet t1tbl h).map IndexedHash.item).getD 0) other.item acc.2).1,
             (childDiffAtomU cfg1 i
                (((tableGet t1tbl h).map IndexedHash.item).getD 0) other.item acc.2).2))
          (fun acc i =>
            (acc.1 ++ (childDiffAtomU cfg2 i
                (((tableGet t1tbl h).map IndexedHash.item).getD 0) other.item acc.2).1,
             (childDiffAtomU cfg2 i
                (((tableGet t1tbl h).map IndexedHash.item).getD 0) other.item acc.2).2))
          (((tableGet t1tbl h).map IndexedHash.indexes).getD [])
          (recs, (countDiff cfg1 st1).1) (recs, (countDiff cfg2 st2).1)
          ⟨rfl, hcore⟩
          (by
            intro u v i _ hR
            dsimp only
            have hch := childDiffAtomU_congr cfg1 cfg2 u.2 v.2 hm hR.2 i
              (((tableGet t1tbl h).map IndexedHash.item).getD 0) other.item
            exact ⟨by rw [hR.1, hch.1], hch.2⟩)
        rw [hrel.1]
        exact ih _ _ _ _ _ hrel.2

theorem reportPhaseU_congr (cfg1 cfg2 : Config) (hashF : Int → Hash)
    (t1 t2 : List Int) (pairs : Pairs) (st1 st2 : Stats)
    (hm : cfg1.maxDiffs = cfg2.maxDiffs)
    (hr : cfg1.reportRepetition = cfg2.reportRepetition)
    (hc : st1.core = st2.core) :
    (reportPhaseU cfg1 hashF t1 t2 pairs st1).1
      = (reportPhaseU cfg2 hashF t1 t2 pairs st2).1 ∧
    (reportPhaseU cfg1 hashF t1 t2 pairs st1).2.core
      = (reportPhaseU cfg2 hashF t1 t2 pairs st2).2.core := by
  unfold reportPhaseU
  rw [hr]
  by_cases hrep : cfg2.reportRepetition
  · simp only [if_pos hrep]
    have ha := addedLoopRepU_congr cfg1 cfg2 (createHashtable hashF t1)
      (createHashtable hashF t2) hm (hashesAddedOf hashF t1 t2) pairs
      (hashesRemovedOf hashF t1 t2) [] st1 st2 hc
    obtain ⟨e1, e2, e3⟩ := ha
    have hflag : (addedLoopRepU cfg1 (createHashtable hashF t1) (createHashtable hashF t2)
          (hashesAddedOf hashF t1 t2) pairs (hashesRemovedOf hashF t1 t2) [] st1).2.2.2.2
        = (addedLoopRepU cfg2 (createHashtable hashF t1) (createHashtable hashF t2)
          (hashesAddedOf hashF t1 t2) pairs (hashesRemovedOf hashF t1 t2) [] st2).2.2.2.2 :=
      congrArg (fun (t : Pairs × List Hash × Bool) => t.2.2) e3
    rw [hflag]
    by_cases hsf : (addedLoopRepU cfg2 (createHashtable hashF t1) (createHashtable hashF t2)
        (hashesAddedOf hashF t1 t2) pairs (hashesRemovedOf hashF t1 t2) [] st2).2.2.2.2
    · simp only [if_pos hsf]
      exact ⟨e1, e2⟩
    · simp only [if_neg hsf]
      have hx1 : (addedLoopRepU cfg1 (createHashtable hashF t1) (createHashtable hashF t2)
            (hashesAddedOf hashF t1 t2) pairs (hashesRemovedOf hashF t1 t2) [] st1).2.2.2.1
          = (addedLoopRepU cfg2 (createHashtable hashF t1) (createHashtable hashF t2)
            (hashesAddedOf hashF t1 t2) pairs (hashesRemovedOf hashF t1 t2) [] st2).2.2.2.1 :=
        congrArg (fun (t : Pairs × List Hash × Bool) => t.2.1) e3
      have hx2 : (addedLoopRepU cfg1 (createHashtable hashF t1) (createHashtable hashF t2)
            (hashesAddedOf hashF t1 t2) pairs (hashesRemovedOf hashF t1 t2) [] st1).2.2.1
          = (addedLoopRepU cfg2 (createHashtable hashF t1) (createHashtable hashF t2)
            (hashesAddedOf hashF t1 t2) pairs (hashesRemovedOf hashF t1 t2) [] st2).2.2.1 :=
        congrArg (fun (t : Pairs × List Hash × Bool) => t.1) e3
      rw [hx1, hx2, e1]
      have hrem := removedLoopRepU_congr cfg1 cfg2 (createHashtable hashF t1)
        (createHashtable hashF t2) hm
        (addedLoopRepU cfg2 (createHashtable hashF t1) (createHashtable hashF t2)
          (hashesAddedOf hashF t1 t2) pairs (hashesRemovedOf hashF t1 t2) [] st2).2.2.2.1
        (addedLoopRepU cfg2 (createHashtable hashF t1) (createHashtable hashF t2)
          (hashesAddedOf hashF t1 t2) pairs (hashesRemovedOf hashF t1 t2) [] st2).2.2.1
        (hashesAddedOf hashF t1 t2)
        (addedLoopRepU cfg2 (createHashtable hashF t1) (createHashtable hashF t2)
          (hashesAddedOf hashF t1 t2) pairs (hashesRemovedOf hashF t1 t2) [] st2).1
        (addedLoopRepU cfg1 (createHashtable hashF t1) (createHashtable hashF t2)
          (hashesAddedOf hashF t1 t2) pairs (hashesRemovedOf hashF t1 t2) [] st1).2.1
        (addedLoopRepU cfg2 (createHashtable hashF t1) (createHashtable hashF t2)
          (hashesAddedOf hashF t1 t2) pairs (hashesRemovedOf hashF t1 t2) [] st2).2.1
        e2
      exact ⟨congrArg _ hrem.1, hrem.2⟩
  · simp only [if_neg hrep]
    have ha := addedLoopU_congr cfg1 cfg2
      ((createHashtable hashF t1).filter (fun e => e.1 ∈ hashesRemovedOf hashF t1 t2))
      ((createHashtable hashF t2).filter (fun e => e.1 ∈ hashesAddedOf hashF t1 t2)) hm
      (hashesAddedOf hashF t1 t2) pairs (hashesRemovedOf hashF t1 t2) [] st1 st2 hc
    obtain ⟨e1, e2, e3⟩ := ha
    have hflag : (addedLoopU cfg1
          ((createHashtable hashF t1).filter (fun e => e.1 ∈ hashesRemovedOf hashF t1 t2))
          ((createHashtable hashF t2).filter (fun e => e.1 ∈ hashesAddedOf hashF t1 t2))
          (hashesAddedOf hashF t1 t2) pairs (hashesRemovedOf hashF t1 t2) [] st1).2.2.2.2
        = (addedLoopU cfg2
          ((createHashtable hashF t1).filter (fun e => e.1 ∈ hashesRemovedOf hashF t1 t2))
          ((createHashtable hashF t2).filter (fun e => e.1 ∈ hashesAddedOf hashF t1 t2))
          (hashesAddedOf hashF t1 t2) pairs (hashesRemovedOf hashF t1 t2) [] st2).2.2.2.2 :=
      congrArg (fun (t : Pairs × List Hash × Bool) => t.2.2) e3
    rw [hflag]
    by_cases hsf : (addedLoopU cfg2
        ((createHashtable hashF t1).filter (fun e => e.1 ∈ hashesRemovedOf hashF t1 t2))
        ((createHashtable hashF t2).filter (fun e => e.1 ∈ hashesAddedOf hashF t1 t2))
        (hashesAddedOf hashF t1 t2) pairs (hashesRemovedOf hashF t1 t2) [] st2).2.2.2.2
    · simp only [if_pos hsf]
      exact ⟨e1, e2⟩
    · simp only [if_neg hsf]
      have hx1 : (addedLoopU cfg1
            ((createHashtable hashF t1).filter (fun e => e.1 ∈ hashesRemovedOf hashF t1 t2))
            ((createHashtable hashF t2).filter (fun e => e.1 ∈ hashesAddedOf hashF t1 t2))
            (hashesAddedOf hashF t1 t2) pairs (hashesRemovedOf hashF t1 t2) [] st1).2.2.2.1
          = (addedLoopU cfg2
            ((createHashtable hashF t1).filter (fun e => e.1 ∈ hashesRemovedOf hashF t1 t2))
            ((createHashtable hashF t2).filter (fun e => e.1 ∈ hashesAddedOf hashF t1 t2))
            (hashesAddedOf hashF t1 t2) pairs (hashesRemovedOf hashF t1 t2) [] st2).2.2.2.1 :=
        congrArg (fun (t : Pairs × List Hash × Bool) => t.2.1) e3
      have hx2 : (addedLoopU cfg1
            ((createHashtable hashF t1).filter (fun e => e.1 ∈ hashesRemovedOf hashF t1 t2))
            ((createHashtable hashF t2).filter (fun e => e.1 ∈ hashesAddedOf hashF t1 t2))
            (hashesAddedOf hashF t1 t2) pairs (hashesRemovedOf hashF t1 t2) [] st1).2.2.1
          = (addedLoopU cfg2
            ((createHashtable hashF t1).filter (fun e => e.1 ∈ hashesRemovedOf hashF t1 t2))
            ((createHashtable hashF t2).filter (fun e => e.1 ∈ hashesAddedOf hashF t1 t2))
            (hashesAddedOf hashF t1 t2) pairs (hashesRemovedOf hashF t1 t2) [] st2).2.2.1 :=
        congrArg (fun (t : Pairs × List Hash × Bool) => t.1) e3
      rw [hx1, hx2, e1]
      exact removedLoopU_congr cfg1 cfg2
        ((createHashtable hashF t1).filter (fun e => e.1 ∈ hashesRemovedOf hashF t1 t2))
        ((createHashtable hashF t2).filter (fun e => e.1 ∈ hashesAddedOf hashF t1 t2)) hm
        _ _ _ _ _ _ e2

/-- C2: the unordered diff run with cache size 0 and the run with cache
size N produce identical change records on the same inputs: the distance
cache (with its order-independent canonical key, hence the symmetry
hypothesis on the nested rough-distance oracle) changes only the
performance bookkeeping, never the reported result. -/
theorem c2_cache_size_result_invariance (cfg : Config) (N : Nat)
    (dd : Hash → Hash → ℚ) (hashF : Int → Hash) (idOf : Int → Nat)
    (t1 t2 : List Int) (parents : List Nat)
    (hsym : ∀ a b, dd a b = dd b a) :
    (diffIterableWithDeephash { cfg with cacheSize := 0 } dd hashF idOf t1 t2 parents
        (initStats { cfg with cacheSize := 0 }) []).1
      = (diffIterableWithDeephash { cfg with cacheSize := N } dd hashF idOf t1 t2 parents
          (initStats { cfg with cacheSize := N }) []).1 := by
  unfold diffIterableWithDeephash
  dsimp only
  have hpp := pairsPhase_spec { cfg with cacheSize := 0 } { cfg with cacheSize := N }
    dd hashF idOf t1 t2
    (if cfg.reportRepetition then createHashtable hashF t1
     else (createHashtable hashF t1).filter
       (fun e => e.1 ∈ hashesRemovedOf hashF t1 t2))
    parents (initStats { cfg with cacheSize := 0 })
    (initStats { cfg with cacheSize := N }) rfl rfl rfl hsym rfl
  rw [hpp.1]
  exact (reportPhaseU_congr { cfg with cacheSize := 0 } { cfg with cacheSize := N }
    hashF t1 t2 _ _ _ rfl rfl hpp.2).1

/-- Witness for C2 at a concrete run: t1 = [1, 2], t2 = [1, 3], cache
sizes 0 and 5. -/
theorem c2_cache_size_result_invariance_witness :
    (diffIterableWithDeephash { defaultConfig with cacheSize := 0 }
        (fun _ _ => mkRat 1 10) (fun n => n) (fun _ => 0) [1, 2] [1, 3] []
        (initStats { defaultConfig with cacheSize := 0 }) []).1
      = (diffIterableWithDeephash { defaultConfig with cacheSize := 5 }
          (fun _ _ => mkRat 1 10) (fun n => n) (fun _ => 0) [1, 2] [1, 3] []
          (initStats { defaultConfig with cacheSize := 5 }) []).1 :=
  c2_cache_size_result_invariance defaultConfig 5 (fun _ _ => mkRat 1 10)
    (fun n => n) (fun _ => 0) [1, 2] [1, 3] [] (fun _ _ => rfl)

end DeepDiffSpec
